import Mathlib

/-!
Verification development for the AINewsBrief filtering / deduplication /
scoring pipeline.

Each Lean definition is a shallow embedding of a function of the Python
source (file and function named at the definition).  Machine reals
(Python floats) are modelled by exact rationals `ℚ`; timestamps
(`datetime` values normalised to UTC) are modelled by `Int` epoch
seconds; Python strings are `String` / `List Char` (one element per
code point, matching Python's `len` and slicing semantics).
-/

/- ### Similarity engine

`src/utils/deduplication.py::_calculate_similarity` (and its identical
copy in `src/utils/dedup_history.py`) is

    SequenceMatcher(None, text1.lower(), text2.lower()).ratio()

so the embedding must include the semantics of CPython's
`difflib.SequenceMatcher` with `isjunk=None` and `autojunk=True`.
The definitions below mirror `Lib/difflib.py` (`__chain_b`,
`find_longest_match`, `get_matching_blocks`, `ratio`).  With
`isjunk=None` the junk set `bjunk` is empty (autojunk's *popular*
elements are removed from `b2j` but are not junk), which is modelled
by `bjunkNone`. -/

/-- Default element used with `List.getD`; every access is within
bounds under the proved invariants, mirroring Python's checked
indexing. -/
def padChar : Char := ' '

/-- Positions (ascending) at which character `c` occurs in `b`:
the entry `b2j[c]` before the autojunk purge. -/
def positionsOf (b : List Char) (c : Char) : List Nat :=
  (List.range b.length).filter (fun j => b.getD j padChar == c)

/-- The autojunk *popular* test of `SequenceMatcher.__chain_b`:
with `len(b) >= 200`, elements occurring more than `len(b) // 100 + 1`
times are purged from `b2j`. -/
def isPopular (b : List Char) (c : Char) : Bool :=
  200 ≤ b.length && b.length / 100 + 1 < (positionsOf b c).length

/-- `b2j[c]` after the autojunk purge: occurrence positions of `c`
in `b`, or `[]` when `c` is popular. -/
def occsOf (b : List Char) (c : Char) : List Nat :=
  if isPopular b c then [] else positionsOf b c

/-- The running best block `(besti, bestj, bestsize)` of
`find_longest_match`. -/
structure FlmBest where
  besti : Nat
  bestj : Nat
  bestsize : Nat
deriving DecidableEq, Repr

/-- State of the main dynamic-programming loop of
`find_longest_match`: the dictionary `newj2len` being built for the
current row (total map, absent keys read as `0`, matching
`dict.get(k, 0)`) together with the running best block. -/
structure FlmState where
  j2len : Nat → Nat
  best : FlmBest

/-- Body of the inner `for j in b2j.get(a[i], nothing)` loop of
`find_longest_match`.  `old` is the previous row's dictionary
(captured as `j2lenget = j2len.get` before the loop).  The guard
models `if j < blo: continue` / `if j >= bhi: break` (the occurrence
list is ascending, so `break` keeps exactly the `j < bhi` prefix).
`old (j-1)` with `j = 0` models `j2len.get(-1, 0) = 0`. -/
def processJ (old : Nat → Nat) (i blo bhi : Nat) (st : FlmState) (j : Nat) :
    FlmState :=
  if blo ≤ j ∧ j < bhi then
    let prev := if j = 0 then 0 else old (j - 1)
    let k := prev + 1
    { j2len := fun j' => if j' = j then k else st.j2len j'
      best := if st.best.bestsize < k then ⟨i + 1 - k, j + 1 - k, k⟩ else st.best }
  else st

/-- One iteration of the `for i in range(alo, ahi)` loop: start a
fresh `newj2len = {}` and process the occurrence list of `a[i]`. -/
def flmIter (a : List Char) (occs : Char → List Nat) (blo bhi : Nat)
    (st : FlmState) (i : Nat) : FlmState :=
  (occs (a.getD i padChar)).foldl (processJ st.j2len i blo bhi)
    { j2len := fun _ => 0, best := st.best }

/-- The whole main loop of `find_longest_match`, starting from
`besti, bestj, bestsize = alo, blo, 0` and `j2len = {}`. -/
def flmLoop (a : List Char) (occs : Char → List Nat)
    (alo ahi blo bhi : Nat) : FlmBest :=
  ((List.range' alo (ahi - alo)).foldl (flmIter a occs blo bhi)
    { j2len := fun _ => 0, best := ⟨alo, blo, 0⟩ }).best

/-- The junk predicate `self.bjunk.__contains__` for
`isjunk=None`: the junk set is empty (autojunk's popular elements go
to `bpopular`, not `bjunk`). -/
def bjunkNone : Char → Bool := fun _ => false

/-- Guard of the backward extension `while` loops of
`find_longest_match` (`p` is `not isbjunk(...)` for the first loop
and `isbjunk(...)` for the third). -/
def backGuard (a b : List Char) (alo blo : Nat) (p : Char → Bool)
    (m : FlmBest) : Prop :=
  alo < m.besti ∧ blo < m.bestj ∧
    p (b.getD (m.bestj - 1) padChar) = true ∧
    a.getD (m.besti - 1) padChar = b.getD (m.bestj - 1) padChar

instance (a b : List Char) (alo blo : Nat) (p : Char → Bool)
    (m : FlmBest) : Decidable (backGuard a b alo blo p m) := by
  unfold backGuard
  infer_instance

/-- One of the two backward extension `while` loops of
`find_longest_match`, with structural fuel.  Each iteration
decrements `besti` by one and the guard forces `alo < besti`, so with
`fuel = besti` (as passed by `extBack`) the fuel never runs out
before the guard fails: this is exactly the `while` loop. -/
def extBackF (a b : List Char) (alo blo : Nat) (p : Char → Bool) :
    Nat → FlmBest → FlmBest
  | 0, m => m
  | fuel + 1, m =>
    if backGuard a b alo blo p m then
      extBackF a b alo blo p fuel ⟨m.besti - 1, m.bestj - 1, m.bestsize + 1⟩
    else m

/-- Backward extension loop of `find_longest_match`. -/
def extBack (a b : List Char) (alo blo : Nat) (p : Char → Bool)
    (m : FlmBest) : FlmBest :=
  extBackF a b alo blo p m.besti m

/-- Guard of the forward extension `while` loops of
`find_longest_match`. -/
def fwdGuard (a b : List Char) (ahi bhi : Nat) (p : Char → Bool)
    (m : FlmBest) : Prop :=
  m.besti + m.bestsize < ahi ∧ m.bestj + m.bestsize < bhi ∧
    p (b.getD (m.bestj + m.bestsize) padChar) = true ∧
    a.getD (m.besti + m.bestsize) padChar
      = b.getD (m.bestj + m.bestsize) padChar

instance (a b : List Char) (ahi bhi : Nat) (p : Char → Bool)
    (m : FlmBest) : Decidable (fwdGuard a b ahi bhi p m) := by
  unfold fwdGuard
  infer_instance

/-- One of the two forward extension `while` loops of
`find_longest_match`, with structural fuel.  Each iteration grows
`bestsize` by one and the guard forces `besti + bestsize < ahi`, so
with `fuel = ahi - (besti + bestsize)` (as passed by `extFwd`) the
fuel never runs out before the guard fails: this is exactly the
`while` loop. -/
def extFwdF (a b : List Char) (ahi bhi : Nat) (p : Char → Bool) :
    Nat → FlmBest → FlmBest
  | 0, m => m
  | fuel + 1, m =>
    if fwdGuard a b ahi bhi p m then
      extFwdF a b ahi bhi p fuel ⟨m.besti, m.bestj, m.bestsize + 1⟩
    else m

/-- Forward extension loop of `find_longest_match`. -/
def extFwd (a b : List Char) (ahi bhi : Nat) (p : Char → Bool)
    (m : FlmBest) : FlmBest :=
  extFwdF a b ahi bhi p (ahi - (m.besti + m.bestsize)) m

/-- `SequenceMatcher.find_longest_match(alo, ahi, blo, bhi)`:
main loop, then the four extension loops (non-junk backward/forward,
junk backward/forward). -/
def find_longest_match (a b : List Char) (occs : Char → List Nat)
    (alo ahi blo bhi : Nat) : FlmBest :=
  let m := flmLoop a occs alo ahi blo bhi
  let m := extBack a b alo blo (fun c => !(bjunkNone c)) m
  let m := extFwd a b ahi bhi (fun c => !(bjunkNone c)) m
  let m := extBack a b alo blo bjunkNone m
  extFwd a b ahi bhi bjunkNone m

/-- Total size of all matching blocks found by the recursive region
splitting of `get_matching_blocks` (the iterative queue of the Python
code visits the same regions; only the total size feeds `ratio`).
`fuel` bounds the recursion depth; every call site passes enough fuel
for the regions actually visited. -/
def match_totalF (a b : List Char) (occs : Char → List Nat) :
    Nat → Nat → Nat → Nat → Nat → Nat
  | 0, _, _, _, _ => 0
  | fuel + 1, alo, ahi, blo, bhi =>
    let m := find_longest_match a b occs alo ahi blo bhi
    if m.bestsize = 0 then 0
    else
      match_totalF a b occs fuel alo m.besti blo m.bestj + m.bestsize +
        match_totalF a b occs fuel (m.besti + m.bestsize) ahi
          (m.bestj + m.bestsize) bhi

/-- `SequenceMatcher(None, a, b).ratio() = 2.0 * M / T` where `M` is
the total matched size and `T = len(a) + len(b)`; `_calculate_ratio`
returns `1.0` when `T = 0`.  Exact rational arithmetic stands in for
Python floats. -/
def ratioQ (a b : List Char) : ℚ :=
  if a.length + b.length = 0 then 1
  else
    mkRat (2 * (match_totalF a b (occsOf b) (a.length + 1)
      0 a.length 0 b.length)) (a.length + b.length)

/-- `str.lower` on one character (the sequences compared here are
ASCII-cased; Python's full Unicode lowering agrees on this range and
is likewise idempotent). -/
def charLower (c : Char) : Char :=
  if 'A' ≤ c ∧ c ≤ 'Z' then Char.ofNat (c.toNat + 32) else c

/-- `text.lower()` as a list of code points. -/
def lowerList (t : String) : List Char := t.toList.map charLower

/-- `src/utils/deduplication.py::_calculate_similarity` (identical in
`src/utils/dedup_history.py`):
`SequenceMatcher(None, text1.lower(), text2.lower()).ratio()`. -/
def calculate_similarity (text1 text2 : String) : ℚ :=
  ratioQ (lowerList text1) (lowerList text2)

/- ### Article model and intra-batch deduplication

`src/models/article.py::Article` (fields used by the core pipeline;
`url` is the canonical string `str(article.url)`, `published_at` an
absolute UTC timestamp in epoch seconds). -/

structure Article where
  title : String
  url : String
  source : String
  published_at : Int
  content : String
  tags : List String := []
  priority : Int := 5
deriving DecidableEq, Repr

/-- Loop body state recursion of
`src/utils/deduplication.py::deduplicate_articles`: `seenUrls` is the
`seen_urls` set (membership only), `seenTitles` the `seen_titles`
list; an article is kept unless its URL was already seen or some seen
title has similarity `≥ threshold` (the `for`/`break` search is
`List.any`). -/
def dedup_go (threshold : ℚ) (seenUrls seenTitles : List String) :
    List Article → List Article
  | [] => []
  | a :: rest =>
    if a.url ∈ seenUrls then dedup_go threshold seenUrls seenTitles rest
    else if seenTitles.any
        (fun t => decide (threshold ≤ calculate_similarity a.title t)) then
      dedup_go threshold seenUrls seenTitles rest
    else
      a :: dedup_go threshold (a.url :: seenUrls) (seenTitles ++ [a.title]) rest

/-- `src/utils/deduplication.py::deduplicate_articles` (default
`title_similarity_threshold = 0.8`, i.e. `mkRat 4 5`). -/
def deduplicate_articles (articles : List Article) (threshold : ℚ) :
    List Article :=
  dedup_go threshold [] [] articles

/- ### Persisted deduplication history (`src/utils/dedup_history.py`) -/

/-- One record of the history file's `articles` array; any of the
keys may be absent (`Option`).  `seen_at` is the parsed timestamp:
`none` models both a missing key and an unparseable ISO string, which
`_parse_seen_at` maps to the epoch. -/
structure HistoryRecord where
  url : Option String
  title : Option String
  seen_at : Option Int
deriving DecidableEq, Repr

/-- `src/utils/dedup_history.py::_parse_seen_at`: missing or
unparseable values collapse to `datetime.fromtimestamp(0)`, i.e.
epoch second `0`. -/
def parse_seen_at (v : Option Int) : Int := v.getD 0

/-- Python truthiness of `r.get("url")` / `r.get("title")`: present
and non-empty. -/
def truthy : Option String → Bool
  | none => false
  | some s => !(s == "")

/-- The retention cutoff `datetime.now(timezone.utc) -
timedelta(days=max_age_days)` in epoch seconds. -/
def history_cutoff (now maxAgeDays : Int) : Int := now - maxAgeDays * 86400

/-- `src/utils/dedup_history.py::load_dedup_history`: prune records
older than the cutoff, then return the seen URLs (a set, modelled as
the list of members) and seen titles of the remaining records. -/
def load_dedup_history (records : List HistoryRecord)
    (now maxAgeDays : Int) : List String × List String :=
  let pruned := records.filter
    (fun r => decide (history_cutoff now maxAgeDays ≤ parse_seen_at r.seen_at))
  (pruned.filterMap (fun r => if truthy r.url then r.url else none),
   pruned.filterMap (fun r => if truthy r.title then r.title else none))

/-- Append loop of `record_seen_articles`: skip articles whose URL is
already in `existing_urls`, else append a fresh record stamped `now`
and extend the set. -/
def record_go (existing : List String) (now : Int) :
    List Article → List HistoryRecord
  | [] => []
  | a :: rest =>
    if a.url ∈ existing then record_go existing now rest
    else ⟨some a.url, some a.title, some now⟩ :: record_go (a.url :: existing) now rest

/-- `src/utils/dedup_history.py::record_seen_articles`: re-read the
current records, prune by age, append records for unseen URLs, and
return the full document to be written back. -/
def record_seen_articles (records : List HistoryRecord)
    (articles : List Article) (now maxAgeDays : Int) : List HistoryRecord :=
  let pruned := records.filter
    (fun r => decide (history_cutoff now maxAgeDays ≤ parse_seen_at r.seen_at))
  pruned ++ record_go
    (pruned.filterMap (fun r => if truthy r.url then r.url else none))
    now articles

/-- `src/utils/dedup_history.py::filter_previously_seen`: drop
articles whose URL is in `seen_urls` or whose title is
similarity-duplicate (`≥ threshold`) of some seen title. -/
def filter_previously_seen (articles : List Article)
    (seenUrls seenTitles : List String) (threshold : ℚ) : List Article :=
  articles.filter (fun a =>
    !(seenUrls.contains a.url) &&
    !(seenTitles.any (fun t => decide (threshold ≤ calculate_similarity a.title t))))

/- ### LLM scoring (`src/analyzers/llm_analyzer.py`) -/

/-- `src/models/analysis.py::AnalysisResult` (pydantic model; the
`ge=0, le=10` score range and the `max_length` caps are validated at
construction — the theorems below show every construction in
`LLMAnalyzer.analyze` satisfies them). -/
structure AnalysisResult where
  article : Article
  title_cn : String
  summary : String
  category : String
  importance_score : Int
  ai_relevance_score : Int
  insight : String
deriving DecidableEq, Repr

/-- The analysis fields of the JSON object produced by
`json.loads` in `_parse_response`, each `Option` (absent key =
`none`).  Scores are integers as emitted by the model; values are
assumed well-typed (a wrongly-typed value raises in Python and lands
in the same fallback path as a parse error). -/
structure RawAnalysis where
  title_cn : Option String := none
  summary : Option String := none
  category : Option String := none
  importance_score : Option Int := none
  ai_relevance_score : Option Int := none
  insight : Option String := none
deriving DecidableEq, Repr

/-- `valid_categories` of `_parse_response`. -/
def valid_categories : List String :=
  ["Breaking News", "Research", "Tools/Products", "Business", "Tutorial"]

/-- `src/analyzers/llm_analyzer.py::LLMAnalyzer._parse_response`,
from the point where `json.loads` has produced `data`: the required
fields are checked in order; a missing `ai_relevance_score` is
defaulted to `5` (backward compatibility), any other missing required
field raises `ValueError`; an unknown category is replaced by
`"Tools/Products"`. -/
def parse_response (d : RawAnalysis) : Except String RawAnalysis :=
  if d.title_cn.isNone then .error "Missing required field: title_cn"
  else if d.summary.isNone then .error "Missing required field: summary"
  else if d.category.isNone then .error "Missing required field: category"
  else if d.importance_score.isNone then
    .error "Missing required field: importance_score"
  else
    let d := if d.ai_relevance_score.isNone then
        { d with ai_relevance_score := some 5 } else d
    if d.insight.isNone then .error "Missing required field: insight"
    else if valid_categories.contains (d.category.getD "") then .ok d
    else .ok { d with category := some "Tools/Products" }

/-- Outcome of one `self.llm.ainvoke(messages)` call:
`success none` is a response whose text yields no parseable JSON
(so `_parse_response` raises), `success (some d)` a response parsing
to the JSON object `d`; the two error cases are distinguished by
`_is_rate_limit_error`. -/
inductive CallOutcome where
  | success (resp : Option RawAnalysis)
  | rateLimitError
  | otherError
deriving DecidableEq, Repr

/-- The tenacity retry wrapper `_ainvoke_with_retry`
(`retry_if_exception(_is_rate_limit_error)`, `stop_after_attempt(4)`,
`reraise=True`): attempt `i` observes `outcomes i`; only rate-limit
errors are retried, and after the fourth attempt the rate-limit error
is re-raised. -/
def invoke_retry_go (outcomes : Nat → CallOutcome) :
    Nat → Nat → CallOutcome
  | 0, _ => .rateLimitError
  | fuel + 1, i =>
    match outcomes i with
    | .rateLimitError =>
      if fuel = 0 then .rateLimitError else invoke_retry_go outcomes fuel (i + 1)
    | o => o

/-- `_ainvoke_with_retry`: up to 4 attempts. -/
def invoke_with_retry (outcomes : Nat → CallOutcome) : CallOutcome :=
  invoke_retry_go outcomes 4 0

/-- The fallback `AnalysisResult` built in the `except` branch of
`LLMAnalyzer.analyze`: original title, fixed Chinese placeholder
texts, and both scores `0` so the item is filtered out downstream. -/
def fallback_result (article : Article) : AnalysisResult where
  article := article
  title_cn := article.title.take 200
  summary := "分析失敗，請查看原始文章"
  category := "Tools/Products"
  importance_score := 0
  ai_relevance_score := 0
  insight := "自動分析失敗"

/-- `src/analyzers/llm_analyzer.py::LLMAnalyzer.analyze`: call the
model through the retry wrapper, parse, and build the
`AnalysisResult` with length truncation (`[:200]`, `[:150]`,
`[:100]`) and score clamping (`min(10, max(0, ...))`); *any*
exception — non-rate-limit call error, rate-limit error persisting
past 4 attempts, JSON extraction failure, or `_parse_response`
validation failure — is caught and yields `fallback_result`.
`data.get("ai_relevance_score", 10)` is the `.get` default of the
source line; after a successful `_parse_response` the field is always
present. -/
def analyze (article : Article) (outcomes : Nat → CallOutcome) :
    AnalysisResult :=
  match invoke_with_retry outcomes with
  | .rateLimitError => fallback_result article
  | .otherError => fallback_result article
  | .success none => fallback_result article
  | .success (some d) =>
    match parse_response d with
    | .error _ => fallback_result article
    | .ok data =>
      { article := article
        title_cn := (data.title_cn.getD "").take 200
        summary := (data.summary.getD "").take 150
        category := data.category.getD ""
        importance_score := min 10 (max 0 (data.importance_score.getD 0))
        ai_relevance_score := min 10 (max 0 (data.ai_relevance_score.getD 10))
        insight := (data.insight.getD "").take 100 }

/-- Any of the failure behaviours of the analysis capability named by
the specification: a non-rate-limit error on the first call, a
rate-limit error persisting through all 4 attempts, or a response
that fails JSON extraction or `_parse_response` validation. -/
def analysis_failure (outcomes : Nat → CallOutcome) : Prop :=
  outcomes 0 = .otherError
    ∨ (∀ i, i < 4 → outcomes i = .rateLimitError)
    ∨ invoke_with_retry outcomes = .success none
    ∨ (∃ d e, invoke_with_retry outcomes = .success (some d)
        ∧ parse_response d = .error e)

/- ### Threshold admission (`src/graph/nodes.py::analyze_node`) -/

/-- The two threshold filters of `analyze_node`: first
`importance_score >= settings.min_importance_score`, then
`ai_relevance_score >= settings.min_ai_relevance_score`. -/
def admitted_articles (analyzed : List AnalysisResult)
    (minImportance minRelevance : Int) : List AnalysisResult :=
  (analyzed.filter (fun a => decide (minImportance ≤ a.importance_score))).filter
    (fun a => decide (minRelevance ≤ a.ai_relevance_score))

/- ### Priority sort and filter pipeline (`src/graph/nodes.py::filter_node`) -/

/-- The `source_priority` lookup table of `priority_sort` in
`filter_node`, in dict insertion order (first substring match wins). -/
def source_priority_table : List (String × Int) :=
  [("OpenAI Blog", 100), ("Anthropic Blog", 100), ("Google AI Blog", 95),
   ("DeepMind Blog", 95), ("GitHub", 80), ("HackerNews", 70), ("ArXiv", 60)]

/-- `if source_key in article.source`: Python substring containment. -/
def substr_match (key source : String) : Bool :=
  decide (key.toList <:+: source.toList)

/-- The sort key returned by `priority_sort`: `(-priority,
article.published_at)` for the first matching table entry, or
`(-50, article.published_at)` for unknown sources. -/
def priority_sort_key (a : Article) : Int × Int :=
  match source_priority_table.find? (fun p => substr_match p.1 a.source) with
  | some p => (-p.2, a.published_at)
  | none => (-50, a.published_at)

/-- Lexicographic `≤` on Python tuples `(int, datetime)`. -/
def pair_le (p q : Int × Int) : Prop :=
  p.1 < q.1 ∨ (p.1 = q.1 ∧ p.2 ≤ q.2)

instance (p q : Int × Int) : Decidable (pair_le p q) := by
  unfold pair_le
  infer_instance

/-- Comparator of `sorted(deduplicated, key=priority_sort)`. -/
def article_le (x y : Article) : Prop :=
  pair_le (priority_sort_key x) (priority_sort_key y)

instance : DecidableRel article_le := by
  unfold article_le
  infer_instance

/-- `sorted(...)` is a stable sort by the key; any stable sort agrees
with CPython's Timsort, and `insertionSort` is one. -/
def sort_articles (l : List Article) : List Article :=
  List.insertionSort article_le l

/-- `filter_node`'s deterministic core as a pure function of the raw
articles, the history snapshot and the configuration: age filter,
content-length filter, history filter (threshold `0.8`), intra-batch
dedup, priority sort, cardinality cap `[:max_articles]`. -/
def filter_node_core (raw : List Article) (now : Int)
    (articleAgeHours minContentLength : Int) (maxArticles : Nat)
    (seenUrls seenTitles : List String) : List Article :=
  let time_filtered := raw.filter
    (fun a => decide (now - articleAgeHours * 3600 ≤ a.published_at))
  let content_filtered := time_filtered.filter
    (fun a => decide (minContentLength ≤ (a.content.length : Int)))
  let history_filtered :=
    filter_previously_seen content_filtered seenUrls seenTitles (mkRat 4 5)
  let deduplicated := deduplicate_articles history_filtered (mkRat 4 5)
  (sort_articles deduplicated).take maxArticles

/- ### Report formatting and sending (`src/graph/nodes.py`) -/

/-- `src/models/report.py::DailyReport` (fields relevant to the run
controller; `articles_by_category` and the float average are carried
by `total_articles` and the rendered text here). -/
structure DailyReport where
  date : Int
  markdown_content : String
  total_articles : Nat
deriving DecidableEq, Repr

/-- `MarkdownFormatter.format(date, analyzed_articles)`: always
returns a `DailyReport`, with `total_articles = len(analyzed_articles)`
and a rendered template string (the jinja2 rendering is abstracted to
a deterministic function of the inputs; `format_node`'s behaviour
depends only on the call being total). -/
def formatter_format (date : Int) (articles : List AnalysisResult) :
    DailyReport where
  date := date
  markdown_content :=
    "📰 AI快訊\n📊 今日共 " ++ toString articles.length ++ " 則新聞\n"
      ++ String.intercalate "\n" (articles.map (fun a => "▸ " ++ a.title_cn))
  total_articles := articles.length

/-- `src/graph/nodes.py::format_node`: the formatter runs whether or
not `analyzed_articles` is empty (an empty list only logs a
warning). -/
def format_node (articles : List AnalysisResult) (date : Int) :
    DailyReport :=
  formatter_format date articles

/-- Outcome of `sender.send_report(report)` as observed by
`send_node`: a message id, `None` (send failed internally), or a
raised exception. -/
inductive TgOutcome where
  | ok (messageId : String)
  | returnedNone
  | raised (msg : String)
deriving DecidableEq, Repr

/-- Result state of `send_node`, plus the effect trace the claims
are about: whether a Telegram delivery was attempted at all
(`send_report` called) and whether the dedup history was written. -/
structure SendResult where
  telegram_message_id : Option String
  report_path : Option String
  errors : List String
  send_attempted : Bool
  history_recorded : Bool
deriving DecidableEq, Repr

/-- `src/graph/nodes.py::send_node`: no report appends an error and
returns; an empty admitted set skips report saving, Telegram delivery
and history recording entirely (`telegram_message_id = None`);
otherwise the report is saved (`saveOutcome`), sent (`tgOutcome`,
errors appended on `None` or exception), and on successful delivery
the seen articles are recorded (`recordOutcome`). -/
def send_node (report : Option DailyReport)
    (analyzed : List AnalysisResult) (errors : List String)
    (saveOutcome : Except String String) (tgOutcome : TgOutcome)
    (recordOutcome : Except String Unit) : SendResult :=
  match report with
  | none =>
    ⟨none, none, errors ++ ["No report to send"], false, false⟩
  | some _ =>
    if analyzed.isEmpty then ⟨none, none, errors, false, false⟩
    else
      let pathAndErrs : Option String × List String :=
        match saveOutcome with
        | .ok p => (some p, errors)
        | .error e => (none, errors ++ ["Error saving report: " ++ e])
      match tgOutcome with
      | .ok mid =>
        match recordOutcome with
        | .ok _ =>
          ⟨some mid, pathAndErrs.1, pathAndErrs.2, true, true⟩
        | .error e =>
          ⟨some mid, pathAndErrs.1,
            pathAndErrs.2 ++ ["Error updating dedup history: " ++ e], true, true⟩
      | .returnedNone =>
        ⟨none, pathAndErrs.1, pathAndErrs.2 ++ ["Failed to send to Telegram"],
          true, false⟩
      | .raised e =>
        ⟨none, pathAndErrs.1, pathAndErrs.2 ++ ["Error sending to Telegram: " ++ e],
          true, false⟩

/- ### Telegram chunked delivery (`src/tools/telegram_sender.py`) -/

/-- `TelegramSender.MAX_MESSAGE_LENGTH`. -/
def MAX_MESSAGE_LENGTH : Nat := 4096

/-- `content.split('\n')` on code-point lists (Python `str.split`
with an explicit separator: `"" ↦ [""]`, separators not kept). -/
def splitLines : List Char → List (List Char)
  | [] => [[]]
  | c :: rest =>
    let ls := splitLines rest
    if c = '\n' then [] :: ls
    else
      match ls with
      | [] => [[c]]
      | h :: t => (c :: h) :: t

/-- The chunk-building loop of
`src/tools/telegram_sender.py::_send_long_message`: grow
`current_chunk` line by line; when adding a line would push the chunk
past `MAX_MESSAGE_LENGTH - 100`, flush the (non-empty) current chunk
and start over from the line; flush the final non-empty chunk.
`current = []` is Python's falsy `current_chunk == ""`. -/
def split_go : List (List Char) → List Char → List (List Char)
  | [], current => if current = [] then [] else [current]
  | line :: rest, current =>
    let test := if current = [] then line else current ++ '\n' :: line
    if MAX_MESSAGE_LENGTH - 100 < test.length then
      (if current = [] then [] else [current]) ++ split_go rest line
    else split_go rest test

/-- The list `messages_to_send` built by `_send_long_message`. -/
def split_long_message (content : List Char) : List (List Char) :=
  split_go (splitLines content) []

/-- The send loop of `_send_long_message`: each chunk is sent in
order and `last_message_id` ends as the id of the last chunk
(`msgIds i` is the id Telegram assigns to the `i`-th send), or `None`
when there was no chunk. -/
def send_long_message (content : List Char) (msgIds : Nat → String) :
    Option String :=
  ((split_long_message content).enum).foldl
    (fun _ p => some (msgIds p.1)) none

/- ### C1: threshold admission -/

/-- C1: an item is in the admitted set produced by `analyze_node` iff
`importance_score >= min_importance_score` and `ai_relevance_score >=
min_ai_relevance_score`, and the two threshold filters commute. -/
theorem threshold_admission (analyzed : List AnalysisResult)
    (minImportance minRelevance : Int) :
    (∀ a : AnalysisResult,
      a ∈ admitted_articles analyzed minImportance minRelevance ↔
        a ∈ analyzed ∧ minImportance ≤ a.importance_score
          ∧ minRelevance ≤ a.ai_relevance_score)
    ∧ admitted_articles analyzed minImportance minRelevance
        = (analyzed.filter
            (fun a => decide (minRelevance ≤ a.ai_relevance_score))).filter
          (fun a => decide (minImportance ≤ a.importance_score)) := by
  constructor
  · intro a
    simp only [admitted_articles, List.mem_filter, decide_eq_true_eq]
    tauto
  · unfold admitted_articles
    rw [List.filter_filter, List.filter_filter]
    apply List.filter_congr
    intro a _
    rw [Bool.and_comm]

/- ### C7: intra-batch dedup idempotence -/

/-- Idempotence of the dedup loop for any fixed seen-state: re-running
the loop over its own output (with the same initial state) accepts
every article again. -/
theorem dedup_go_idem (threshold : ℚ) :
    ∀ (l : List Article) (su st : List String),
      dedup_go threshold su st (dedup_go threshold su st l)
        = dedup_go threshold su st l := by
  intro l
  induction l with
  | nil => intro su st; simp [dedup_go]
  | cons a rest ih =>
    intro su st
    by_cases h1 : a.url ∈ su
    · simp only [dedup_go, if_pos h1]
      exact ih su st
    · by_cases h2 : (st.any
          fun t => decide (threshold ≤ calculate_similarity a.title t)) = true
      · simp only [dedup_go, if_neg h1, if_pos h2]
        exact ih su st
      · simp only [dedup_go, if_neg h1, if_neg h2]
        rw [ih (a.url :: su) (st ++ [a.title])]

/-- C7: `deduplicate_articles` is idempotent for every article list
and threshold, and the deterministic core of the filter pipeline is a
pure function of articles, history snapshot and configuration (two
runs on the same inputs give the same output). -/
theorem deduplicate_articles_idempotent :
    (∀ (articles : List Article) (threshold : ℚ),
      deduplicate_articles (deduplicate_articles articles threshold) threshold
        = deduplicate_articles articles threshold)
    ∧ (∀ raw now ageHours minLen maxArticles seenUrls seenTitles,
      filter_node_core raw now ageHours minLen maxArticles seenUrls seenTitles
        = filter_node_core raw now ageHours minLen maxArticles seenUrls
            seenTitles) := by
  constructor
  · intro articles threshold
    exact dedup_go_idem threshold articles [] []
  · intro raw now ageHours minLen maxArticles seenUrls seenTitles
    rfl

/- ### C5: retention pruning -/

/-- Every record produced by the append loop of
`record_seen_articles` is stamped `some now`. -/
theorem record_go_seen_at (now : Int) :
    ∀ (articles : List Article) (existing : List String)
      (r : HistoryRecord), r ∈ record_go existing now articles →
      r.seen_at = some now := by
  intro articles
  induction articles with
  | nil => intro existing r hr; simp [record_go] at hr
  | cons a rest ih =>
    intro existing r hr
    by_cases h : a.url ∈ existing
    · exact ih existing r (by simpa [record_go, h] using hr)
    · simp only [record_go, if_neg h, List.mem_cons] at hr
      rcases hr with rfl | hr
      · rfl
      · exact ih (a.url :: existing) r hr

/-- C5: a `HistoryRecord` older than `now - max_age_days` contributes
neither to `seen_urls` nor to `seen_titles` after
`load_dedup_history` (every returned URL/title comes from a record
within the retention window), and `record_seen_articles` never writes
a stale record back (every written record's `seen_at` is within the
window). -/
theorem retention_pruning (records : List HistoryRecord)
    (articles : List Article) (now maxAgeDays : Int)
    (hAge : 0 ≤ maxAgeDays) :
    (∀ u ∈ (load_dedup_history records now maxAgeDays).1,
      ∃ r ∈ records, r.url = some u
        ∧ history_cutoff now maxAgeDays ≤ parse_seen_at r.seen_at)
    ∧ (∀ t ∈ (load_dedup_history records now maxAgeDays).2,
      ∃ r ∈ records, r.title = some t
        ∧ history_cutoff now maxAgeDays ≤ parse_seen_at r.seen_at)
    ∧ (∀ r ∈ record_seen_articles records articles now maxAgeDays,
      history_cutoff now maxAgeDays ≤ parse_seen_at r.seen_at) := by
  refine ⟨?_, ?_, ?_⟩
  · intro u hu
    simp only [load_dedup_history, List.mem_filterMap, List.mem_filter,
      decide_eq_true_eq] at hu
    obtain ⟨r, ⟨hr, hcut⟩, hval⟩ := hu
    refine ⟨r, hr, ?_, hcut⟩
    by_cases ht : truthy r.url = true
    · simpa [ht] using hval
    · simp [ht] at hval
  · intro t ht
    simp only [load_dedup_history, List.mem_filterMap, List.mem_filter,
      decide_eq_true_eq] at ht
    obtain ⟨r, ⟨hr, hcut⟩, hval⟩ := ht
    refine ⟨r, hr, ?_, hcut⟩
    by_cases htr : truthy r.title = true
    · simpa [htr] using hval
    · simp [htr] at hval
  · intro r hr
    simp only [record_seen_articles, List.mem_append] at hr
    rcases hr with hr | hr
    · exact (List.mem_filter.mp hr).2 |> of_decide_eq_true
    · rw [record_go_seen_at now articles _ r hr]
      simp only [parse_seen_at, Option.getD_some, history_cutoff]
      nlinarith

/-- Witness for `retention_pruning` at a concrete history. -/
theorem retention_pruning_witness :
    (0 : Int) ≤ 30
    ∧ ((∀ u ∈ (load_dedup_history
          [⟨some "https://x/1", some "Old title", some 0⟩]
          (100 * 86400) 30).1,
        ∃ r ∈ [(⟨some "https://x/1", some "Old title", some 0⟩ : HistoryRecord)],
          r.url = some u ∧ history_cutoff (100 * 86400) 30 ≤ parse_seen_at r.seen_at)
      ∧ (∀ t ∈ (load_dedup_history
          [⟨some "https://x/1", some "Old title", some 0⟩]
          (100 * 86400) 30).2,
        ∃ r ∈ [(⟨some "https://x/1", some "Old title", some 0⟩ : HistoryRecord)],
          r.title = some t ∧ history_cutoff (100 * 86400) 30 ≤ parse_seen_at r.seen_at)
      ∧ (∀ r ∈ record_seen_articles
          [⟨some "https://x/1", some "Old title", some 0⟩] [] (100 * 86400) 30,
        history_cutoff (100 * 86400) 30 ≤ parse_seen_at r.seen_at)) :=
  ⟨by decide,
    retention_pruning [⟨some "https://x/1", some "Old title", some 0⟩] []
      (100 * 86400) 30 (by decide)⟩

/- ### C2: fallback sentinel -/

/-- Every failure behaviour makes `invoke_with_retry`/`parse_response`
produce something other than a successfully parsed response. -/
theorem analyze_eq_fallback_of_failure (article : Article)
    (outcomes : Nat → CallOutcome) (h : analysis_failure outcomes) :
    analyze article outcomes = fallback_result article := by
  rcases h with h | h | h | ⟨d, e, hiv, hpr⟩
  · have hiv : invoke_with_retry outcomes = .otherError := by
      simp [invoke_with_retry, invoke_retry_go, h]
    simp [analyze, hiv]
  · have hiv : invoke_with_retry outcomes = .rateLimitError := by
      simp [invoke_with_retry, invoke_retry_go,
        h 0 (by norm_num), h 1 (by norm_num), h 2 (by norm_num),
        h 3 (by norm_num)]
    simp [analyze, hiv]
  · simp [analyze, h]
  · simp [analyze, hiv, hpr]

/-- C2: for every article and every failure behaviour of the analysis
capability (non-rate-limit error, rate-limit error persisting past 4
attempts, or a response failing parsing/validation),
`LLMAnalyzer.analyze` returns — rather than raising — the fallback
`AnalysisResult` with `importance_score = 0` and
`ai_relevance_score = 0`, which the downstream admission thresholds
(any `min_importance_score ≥ 1`, e.g. the default 5) exclude. -/
theorem fallback_sentinel (article : Article)
    (outcomes : Nat → CallOutcome) (h : analysis_failure outcomes) :
    analyze article outcomes = fallback_result article
    ∧ (analyze article outcomes).importance_score = 0
    ∧ (analyze article outcomes).ai_relevance_score = 0
    ∧ (∀ (analyzed : List AnalysisResult) (minImportance minRelevance : Int),
        1 ≤ minImportance →
        analyze article outcomes
          ∉ admitted_articles analyzed minImportance minRelevance) := by
  have hfb := analyze_eq_fallback_of_failure article outcomes h
  refine ⟨hfb, by rw [hfb]; rfl, by rw [hfb]; rfl, ?_⟩
  intro analyzed minImportance minRelevance hmin hmem
  simp only [admitted_articles, List.mem_filter, decide_eq_true_eq] at hmem
  have : minImportance ≤ (analyze article outcomes).importance_score :=
    hmem.1.2
  rw [hfb] at this
  simp only [fallback_result] at this
  omega

/-- Witness for `fallback_sentinel`: an analysis call failing with a
non-rate-limit error on a concrete article. -/
theorem fallback_sentinel_witness :
    analysis_failure (fun _ => CallOutcome.otherError)
    ∧ (analyze ⟨"GPT-5 Released", "https://x/1", "HackerNews", 0,
          "body", [], 5⟩ (fun _ => CallOutcome.otherError)
        = fallback_result ⟨"GPT-5 Released", "https://x/1", "HackerNews", 0,
          "body", [], 5⟩
      ∧ (analyze ⟨"GPT-5 Released", "https://x/1", "HackerNews", 0,
          "body", [], 5⟩ (fun _ => CallOutcome.otherError)).importance_score = 0
      ∧ (analyze ⟨"GPT-5 Released", "https://x/1", "HackerNews", 0,
          "body", [], 5⟩ (fun _ => CallOutcome.otherError)).ai_relevance_score = 0
      ∧ (∀ (analyzed : List AnalysisResult) (minImportance minRelevance : Int),
          1 ≤ minImportance →
          analyze ⟨"GPT-5 Released", "https://x/1", "HackerNews", 0,
            "body", [], 5⟩ (fun _ => CallOutcome.otherError)
            ∉ admitted_articles analyzed minImportance minRelevance)) :=
  ⟨Or.inl rfl,
    fallback_sentinel ⟨"GPT-5 Released", "https://x/1", "HackerNews", 0,
      "body", [], 5⟩ (fun _ => CallOutcome.otherError) (Or.inl rfl)⟩

/- ### C8: missing ai_relevance_score default policy -/

/-- C8: when the parsed response object has every required field
except `ai_relevance_score`, `_parse_response` injects the default
`5` and `analyze` returns a normal `AnalysisResult` built from the
response (score `5`, title taken from the response, not from the
fallback); when any *other* required field is missing,
`_parse_response` raises and `analyze` falls back to the zero-score
sentinel. -/
theorem ai_relevance_default_policy :
    (∀ (article : Article) (d : RawAnalysis),
      d.title_cn.isSome = true → d.summary.isSome = true →
      d.category.isSome = true → d.importance_score.isSome = true →
      d.insight.isSome = true → d.ai_relevance_score = none →
      (∃ d', parse_response d = .ok d' ∧ d'.ai_relevance_score = some 5)
      ∧ (analyze article (fun _ => .success (some d))).ai_relevance_score = 5
      ∧ (analyze article (fun _ => .success (some d))).title_cn
          = (d.title_cn.getD "").take 200
      ∧ (analyze article (fun _ => .success (some d))).importance_score
          = min 10 (max 0 (d.importance_score.getD 0)))
    ∧ (∀ (article : Article) (d : RawAnalysis),
      (d.title_cn = none ∨ d.summary = none ∨ d.category = none ∨
        d.importance_score = none ∨ d.insight = none) →
      analyze article (fun _ => .success (some d))
        = fallback_result article) := by
  constructor
  · intro article d h1 h2 h3 h4 h5 h6
    have hinv : invoke_with_retry (fun _ => .success (some d))
        = .success (some d) := by
      simp [invoke_with_retry, invoke_retry_go]
    by_cases hc : d.category.getD "" ∈ valid_categories
    · have hpr : parse_response d
          = .ok { d with ai_relevance_score := some 5 } := by
        simp [parse_response, Option.isNone_iff_eq_none, h6, hc,
          Option.isSome_iff_ne_none.mp h1, Option.isSome_iff_ne_none.mp h2,
          Option.isSome_iff_ne_none.mp h3, Option.isSome_iff_ne_none.mp h4,
          Option.isSome_iff_ne_none.mp h5]
      refine ⟨⟨_, hpr, rfl⟩, ?_, ?_, ?_⟩ <;> simp [analyze, hinv, hpr]
    · have hpr : parse_response d
          = .ok { d with ai_relevance_score := some 5,
                         category := some "Tools/Products" } := by
        simp [parse_response, Option.isNone_iff_eq_none, h6, hc,
          Option.isSome_iff_ne_none.mp h1, Option.isSome_iff_ne_none.mp h2,
          Option.isSome_iff_ne_none.mp h3, Option.isSome_iff_ne_none.mp h4,
          Option.isSome_iff_ne_none.mp h5]
      refine ⟨⟨_, hpr, rfl⟩, ?_, ?_, ?_⟩ <;> simp [analyze, hinv, hpr]
  · intro article d h
    have hinv : invoke_with_retry (fun _ => .success (some d))
        = .success (some d) := by
      simp [invoke_with_retry, invoke_retry_go]
    have herr : ∃ e, parse_response d = .error e := by
      by_cases g1 : d.title_cn = none
      · exact ⟨"Missing required field: title_cn",
          by simp [parse_response, Option.isNone_iff_eq_none, g1]⟩
      by_cases g2 : d.summary = none
      · exact ⟨"Missing required field: summary",
          by simp [parse_response, Option.isNone_iff_eq_none, g1, g2]⟩
      by_cases g3 : d.category = none
      · exact ⟨"Missing required field: category",
          by simp [parse_response, Option.isNone_iff_eq_none, g1, g2, g3]⟩
      by_cases g4 : d.importance_score = none
      · exact ⟨"Missing required field: importance_score",
          by simp [parse_response, Option.isNone_iff_eq_none, g1, g2, g3, g4]⟩
      have g5 : d.insight = none := by tauto
      by_cases g6 : d.ai_relevance_score = none
      · exact ⟨"Missing required field: insight", by
          simp [parse_response, Option.isNone_iff_eq_none, g1, g2, g3, g4, g5, g6]⟩
      · exact ⟨"Missing required field: insight", by
          simp [parse_response, Option.isNone_iff_eq_none, g1, g2, g3, g4, g5, g6]⟩
    obtain ⟨e, he⟩ := herr
    simp [analyze, hinv, he]

/-- Witness for `ai_relevance_default_policy`: a response missing
only `ai_relevance_score` gets the default 5; one missing `summary`
falls back. -/
theorem ai_relevance_default_policy_witness :
    ((analyze ⟨"T", "https://x/1", "GitHub", 0, "body", [], 5⟩
        (fun _ => .success (some ⟨some "標題", some "摘要", some "Research",
          some 8, none, some "洞察"⟩))).ai_relevance_score = 5
      ∧ (analyze ⟨"T", "https://x/1", "GitHub", 0, "body", [], 5⟩
        (fun _ => .success (some ⟨some "標題", some "摘要", some "Research",
          some 8, none, some "洞察"⟩))).importance_score = 8)
    ∧ analyze ⟨"T", "https://x/1", "GitHub", 0, "body", [], 5⟩
        (fun _ => .success (some ⟨some "標題", none, some "Research",
          some 8, none, some "洞察"⟩))
      = fallback_result ⟨"T", "https://x/1", "GitHub", 0, "body", [], 5⟩ := by
  constructor
  · have h := ai_relevance_default_policy.1
      ⟨"T", "https://x/1", "GitHub", 0, "body", [], 5⟩
      ⟨some "標題", some "摘要", some "Research", some 8, none, some "洞察"⟩
      rfl rfl rfl rfl rfl rfl
    exact ⟨h.2.1, by rw [h.2.2.2]; decide⟩
  · exact ai_relevance_default_policy.2
      ⟨"T", "https://x/1", "GitHub", 0, "body", [], 5⟩
      ⟨some "標題", none, some "Research", some 8, none, some "洞察"⟩
      (Or.inr (Or.inl rfl))

/- ### C10: score clamping on the success path -/

/-- C10: whenever the response parses successfully, the constructed
`AnalysisResult` carries `min(10, max(0, ...))` of the raw scores, so
both scores lie in `[0, 10]` and the pydantic `ge=0, le=10`
validation cannot fail on the success path even for out-of-range
integer scores in the LLM output. -/
theorem success_scores_clamped (article : Article) (d d' : RawAnalysis)
    (h : parse_response d = .ok d') :
    (analyze article (fun _ => .success (some d))).importance_score
        = min 10 (max 0 (d'.importance_score.getD 0))
    ∧ (analyze article (fun _ => .success (some d))).ai_relevance_score
        = min 10 (max 0 (d'.ai_relevance_score.getD 10))
    ∧ 0 ≤ (analyze article (fun _ => .success (some d))).importance_score
    ∧ (analyze article (fun _ => .success (some d))).importance_score ≤ 10
    ∧ 0 ≤ (analyze article (fun _ => .success (some d))).ai_relevance_score
    ∧ (analyze article (fun _ => .success (some d))).ai_relevance_score ≤ 10 := by
  have hinv : invoke_with_retry (fun _ => .success (some d))
      = .success (some d) := by
    simp [invoke_with_retry, invoke_retry_go]
  refine ⟨?_, ?_, ?_, ?_, ?_, ?_⟩ <;>
    first
    | (simp [analyze, hinv, h]; omega)
    | simp [analyze, hinv, h]

/-- Witness for `success_scores_clamped`: a response with
out-of-range integer scores (`99` and `-3`) produces a valid
`AnalysisResult` with scores clamped to `10` and `0`. -/
theorem success_scores_clamped_witness :
    parse_response ⟨some "標題", some "摘要", some "Research", some 99,
        some (-3), some "洞察"⟩
      = .ok ⟨some "標題", some "摘要", some "Research", some 99,
        some (-3), some "洞察"⟩
    ∧ (analyze ⟨"T", "https://x/1", "GitHub", 0, "body", [], 5⟩
        (fun _ => .success (some ⟨some "標題", some "摘要", some "Research",
          some 99, some (-3), some "洞察"⟩))).importance_score
        = min 10 (max 0 ((some (99 : Int)).getD 0))
    ∧ (analyze ⟨"T", "https://x/1", "GitHub", 0, "body", [], 5⟩
        (fun _ => .success (some ⟨some "標題", some "摘要", some "Research",
          some 99, some (-3), some "洞察"⟩))).ai_relevance_score
        = min 10 (max 0 ((some (-3 : Int)).getD 10)) :=
  ⟨by rfl,
    (success_scores_clamped ⟨"T", "https://x/1", "GitHub", 0, "body", [], 5⟩
      ⟨some "標題", some "摘要", some "Research", some 99, some (-3), some "洞察"⟩
      ⟨some "標題", some "摘要", some "Research", some 99, some (-3), some "洞察"⟩
      (by rfl)).1,
    (success_scores_clamped ⟨"T", "https://x/1", "GitHub", 0, "body", [], 5⟩
      ⟨some "標題", some "摘要", some "Research", some 99, some (-3), some "洞察"⟩
      ⟨some "標題", some "摘要", some "Research", some 99, some (-3), some "洞察"⟩
      (by rfl)).2.1⟩

/- ### C4: empty admitted set still reaches Format / Send -/

/-- C4 counterexample: on a run whose admitted set is empty, with a
report present and all collaborators healthy, `send_node` does *not*
attempt delivery to the messaging endpoint (it returns
`telegram_message_id = None` without calling `send_report`), contrary
to the claim that delivery is still attempted. -/
theorem empty_run_delivery_skipped :
    (send_node (some (format_node [] 0)) [] [] (.ok "reports/x.md")
        (.ok "42") (.ok ())).send_attempted = false
    ∧ (send_node (some (format_node [] 0)) [] [] (.ok "reports/x.md")
        (.ok "42") (.ok ())).telegram_message_id = none := by
  constructor <;> rfl

/-- C4 (amended): when the admitted set after Filter+Score is empty,
`format_node` still executes and produces a (minimal) report, and
`send_node` still executes — but instead of attempting delivery it
skips Telegram entirely, returning `telegram_message_id = None` with
no new errors, so the "no news today" run is observable in the run
state and logs, not at the delivery endpoint. -/
theorem empty_run_format_send (date : Int) (errors : List String)
    (saveOutcome : Except String String) (tgOutcome : TgOutcome)
    (recordOutcome : Except String Unit) :
    (format_node [] date).total_articles = 0
    ∧ send_node (some (format_node [] date)) [] errors saveOutcome tgOutcome
        recordOutcome
      = ⟨none, none, errors, false, false⟩ := by
  constructor <;> rfl

/- ### C3: priority sort -/

/-- Transitivity of the sort comparator. -/
instance : IsTrans Article article_le where
  trans := by
    intro x y z hxy hyz
    simp only [article_le, pair_le] at *
    rcases hxy with h | ⟨h, h'⟩ <;> rcases hyz with g | ⟨g, g'⟩ <;>
      [left; left; left; right] <;> omega

/-- Totality of the sort comparator. -/
instance : IsTotal Article article_le where
  total := by
    intro x y
    simp only [article_le, pair_le]
    omega

/-- The spec's claimed ordering: same priority buckets, but ties
broken by most-recent `published_at` *first* (newest before oldest).
This definition follows the specification's words and is compared
against the code's `sort_articles`. -/
def spec_claim_le (x y : Article) : Prop :=
  (priority_sort_key x).1 < (priority_sort_key y).1 ∨
    ((priority_sort_key x).1 = (priority_sort_key y).1 ∧
      y.published_at ≤ x.published_at)

instance : DecidableRel spec_claim_le := by
  unfold spec_claim_le
  infer_instance

/-- Two GitHub articles differing only in recency. -/
def github_article_old : Article :=
  ⟨"Release v1", "https://github.com/x/releases/1", "GitHub", 1, "content", [], 5⟩

/-- Two GitHub articles differing only in recency. -/
def github_article_new : Article :=
  ⟨"Release v2", "https://github.com/x/releases/2", "GitHub", 2, "content", [], 5⟩

/-- C3 counterexample: for two same-source (same priority bucket)
GitHub articles, the code's sort puts the *older* one first
(`published_at` ascending), violating the claimed
most-recent-first tie-break. -/
theorem priority_sort_tiebreak_counterexample :
    sort_articles [github_article_old, github_article_new]
      = [github_article_old, github_article_new]
    ∧ ¬ (sort_articles [github_article_old, github_article_new]).Pairwise
        spec_claim_le := by
  constructor
  · decide
  · decide

/-- C3 (amended): `sort_articles` is a stable sort by the
source-priority lookup (first substring match in the table: official
blogs 100/95 > GitHub 80 > HackerNews 70 / ArXiv 60, unknown sources
in the default bucket −50), with ties inside a priority bucket broken
by *oldest* `published_at` first (ascending timestamps), the opposite
of the claimed newest-first order: the output is a permutation of the
input, sorted under the key comparator, equal-key runs keep their
input order (stability), and unknown sources get key
`(-50, published_at)`. -/
theorem priority_sort_spec (l : List Article) :
    (sort_articles l).Perm l
    ∧ (sort_articles l).Pairwise article_le
    ∧ (∀ c : List Article, c.Pairwise article_le →
        c.Sublist l → c.Sublist (sort_articles l))
    ∧ (∀ a : Article,
        source_priority_table.find? (fun p => substr_match p.1 a.source) = none →
        priority_sort_key a = (-50, a.published_at)) := by
  refine ⟨List.perm_insertionSort article_le l,
    List.sorted_insertionSort article_le l, ?_, ?_⟩
  · intro c hc hsub
    exact List.sublist_insertionSort hc hsub
  · intro a hfind
    simp [priority_sort_key, hfind]

/-- Witness for `priority_sort_spec` on a concrete list, including
the stability conjunct at a concrete sorted sublist. -/
theorem priority_sort_spec_witness :
    (sort_articles [github_article_new, github_article_old]).Perm
        [github_article_new, github_article_old]
    ∧ [github_article_old].Sublist
        (sort_articles [github_article_new, github_article_old])
    ∧ priority_sort_key ⟨"T", "https://x/1", "Some Random Feed", 7,
        "c", [], 5⟩ = (-50, 7) :=
  ⟨(priority_sort_spec [github_article_new, github_article_old]).1,
    (priority_sort_spec [github_article_new, github_article_old]).2.2.1
      [github_article_old] (by simp) (by simp),
    (priority_sort_spec []).2.2.2 ⟨"T", "https://x/1", "Some Random Feed", 7,
      "c", [], 5⟩ (by rfl)⟩

/- ### C9: chunked delivery -/

/-- `'\n'.join(lines)`: the inverse of `splitLines`, used to state
that every chunk is a join of whole lines. -/
def join_lines : List (List Char) → List Char
  | [] => []
  | [l] => l
  | l :: rest => l ++ '\n' :: join_lines rest

/-- Appending one more line to a non-empty join is exactly the
`current_chunk + '\n' + line` step of the loop. -/
theorem join_lines_append_line (line : List Char) :
    ∀ (pre : List (List Char)), pre ≠ [] →
      join_lines (pre ++ [line]) = join_lines pre ++ '\n' :: line := by
  intro pre
  induction pre with
  | nil => intro h; exact absurd rfl h
  | cons p rest ih =>
    intro _
    cases rest with
    | nil => rfl
    | cons q rest' =>
      show join_lines (p :: ((q :: rest') ++ [line]))
        = join_lines (p :: q :: rest') ++ '\n' :: line
      have h1 : join_lines (p :: ((q :: rest') ++ [line]))
          = p ++ '\n' :: join_lines ((q :: rest') ++ [line]) := by
        cases rest' <;> rfl
      have h2 : join_lines (p :: q :: rest')
          = p ++ '\n' :: join_lines (q :: rest') := by
        cases rest' <;> rfl
      rw [h1, ih (by simp), h2]
      simp

/-- A list whose append with something is a suffix is itself an
infix. -/
theorem seg_of_append_suffix {α : Type} {x y L : List α}
    (h : x ++ y <:+ L) : x <:+: L := by
  obtain ⟨t, ht⟩ := h
  exact ⟨t, y, by rw [← ht, List.append_assoc]⟩

/-- Dropping a prefix of a suffix leaves a suffix. -/
theorem suffix_of_append_suffix {α : Type} {x y L : List α}
    (h : x ++ y <:+ L) : y <:+ L := by
  obtain ⟨t, ht⟩ := h
  exact ⟨t ++ x, by rw [← ht, List.append_assoc]⟩

/-- Every chunk built by `split_go` is the newline-join of a
non-empty contiguous run of the line list: the loop never splits in
the middle of a line. -/
theorem split_go_chunks (L : List (List Char)) :
    ∀ (lines : List (List Char)) (cur : List Char)
      (pre : List (List Char)), cur = join_lines pre → pre ++ lines <:+ L →
      ∀ c ∈ split_go lines cur,
        ∃ ls, ls ≠ [] ∧ ls <:+: L ∧ c = join_lines ls := by
  intro lines
  induction lines with
  | nil =>
    intro cur pre hcur hsuf c hc
    simp only [split_go] at hc
    split at hc
    · simp at hc
    · rename_i hne
      simp only [List.mem_singleton] at hc
      subst hc
      refine ⟨pre, ?_, seg_of_append_suffix hsuf, hcur⟩
      rintro rfl
      exact hne (by simp [hcur, join_lines])
  | cons line rest ih =>
    intro cur pre hcur hsuf c hc
    have hlinerest : [line] ++ rest <:+ L :=
      suffix_of_append_suffix (by simpa using hsuf)
    simp only [split_go] at hc
    by_cases hemp : cur = []
    · rw [if_pos hemp] at hc
      split at hc <;>
        exact ih line [line] rfl hlinerest c (by simpa using hc)
    · rw [if_neg hemp] at hc
      have hprene : pre ≠ [] := by
        rintro rfl
        exact hemp (by simp [hcur, join_lines])
      have htest : cur ++ '\n' :: line = join_lines (pre ++ [line]) := by
        rw [join_lines_append_line line pre hprene, hcur]
      split at hc
      · simp only [List.cons_append, List.nil_append, List.mem_cons] at hc
        rcases hc with rfl | hc
        · exact ⟨pre, hprene, seg_of_append_suffix hsuf, hcur⟩
        · exact ih line [line] rfl hlinerest c hc
      · refine ih (cur ++ '\n' :: line) (pre ++ [line]) htest ?_ c hc
        rw [List.append_assoc]
        simpa using hsuf

/-- When every line fits in `MAX_MESSAGE_LENGTH - 100` and the
accumulated chunk does too, every emitted chunk fits in
`MAX_MESSAGE_LENGTH - 100`. -/
theorem split_go_size :
    ∀ (lines : List (List Char)) (cur : List Char),
      cur.length ≤ MAX_MESSAGE_LENGTH - 100 →
      (∀ l ∈ lines, l.length ≤ MAX_MESSAGE_LENGTH - 100) →
      ∀ c ∈ split_go lines cur, c.length ≤ MAX_MESSAGE_LENGTH - 100 := by
  intro lines
  induction lines with
  | nil =>
    intro cur hcur _ c hc
    simp only [split_go] at hc
    split at hc
    · simp at hc
    · simp only [List.mem_singleton] at hc
      exact hc ▸ hcur
  | cons line rest ih =>
    intro cur hcur hall c hc
    have hline : line.length ≤ MAX_MESSAGE_LENGTH - 100 :=
      hall line (List.mem_cons_self line rest)
    have hrest : ∀ l ∈ rest, l.length ≤ MAX_MESSAGE_LENGTH - 100 :=
      fun l hl => hall l (List.mem_cons_of_mem line hl)
    simp only [split_go] at hc
    by_cases hemp : cur = []
    · rw [if_pos hemp] at hc
      split at hc <;>
        exact ih line hline hrest c (by simpa using hc)
    · rw [if_neg hemp] at hc
      split at hc
      · simp only [List.cons_append, List.nil_append, List.mem_cons] at hc
        rcases hc with rfl | hc
        · exact hcur
        · exact ih line hline hrest c hc
      · rename_i hnot
        exact ih (cur ++ '\n' :: line) (Nat.le_of_not_lt hnot) hrest c hc

/-- The send loop returns the id assigned to the last chunk. -/
theorem foldl_enumFrom_last {α : Type} (f : Nat → String) :
    ∀ (l : List α) (k : Nat) (init : Option String),
      (List.enumFrom k l).foldl (fun _ p => some (f p.1)) init
        = if l.isEmpty then init else some (f (k + l.length - 1)) := by
  intro l
  induction l with
  | nil => intro k init; rfl
  | cons a rest ih =>
    intro k init
    simp only [List.enumFrom, List.foldl_cons, List.isEmpty_cons]
    rw [ih (k + 1) (some (f k))]
    cases rest with
    | nil => simp
    | cons b rest' =>
      have h1 : ((b :: rest').isEmpty) = false := rfl
      rw [h1]
      simp only [Bool.false_eq_true, if_false, List.length_cons]
      have h2 : k + 1 + (rest'.length + 1) - 1 = k + (rest'.length + 1 + 1) - 1 := by
        omega
      rw [h2]

/-- C9 (amended): `_send_long_message` splits the report at line
boundaries only — every sent chunk is the newline-join of a non-empty
contiguous run of whole lines of the report — and, provided every
single line fits within `MAX_MESSAGE_LENGTH - 100 = 3996` characters
(the loop's margin; a longer line becomes an oversized chunk, see the
counterexample), every sent chunk is within the 4096-character
transport limit; when at least one chunk is sent, the returned id is
the id of the last chunk. -/
theorem chunked_delivery (content : List Char) (msgIds : Nat → String) :
    (∀ c ∈ split_long_message content,
      ∃ ls, ls ≠ [] ∧ ls <:+: splitLines content ∧ c = join_lines ls)
    ∧ ((∀ l ∈ splitLines content, l.length ≤ MAX_MESSAGE_LENGTH - 100) →
      ∀ c ∈ split_long_message content, c.length ≤ MAX_MESSAGE_LENGTH)
    ∧ (split_long_message content ≠ [] →
      send_long_message content msgIds
        = some (msgIds ((split_long_message content).length - 1))) := by
  refine ⟨?_, ?_, ?_⟩
  · intro c hc
    exact split_go_chunks (splitLines content) (splitLines content) [] []
      rfl (by simp) c hc
  · intro hall c hc
    have hb := split_go_size (splitLines content) [] (by simp) hall c hc
    have hmax : MAX_MESSAGE_LENGTH = 4096 := rfl
    omega
  · intro hne
    unfold send_long_message List.enum
    rw [foldl_enumFrom_last msgIds (split_long_message content) 0 none,
      if_neg (by simpa using hne)]
    simp

/-- Witness for `chunked_delivery` on a concrete two-line report. -/
theorem chunked_delivery_witness :
    (∀ l ∈ splitLines ('a' :: 'b' :: '\n' :: 'c' :: 'd' :: []),
      l.length ≤ MAX_MESSAGE_LENGTH - 100)
    ∧ (∀ c ∈ split_long_message ('a' :: 'b' :: '\n' :: 'c' :: 'd' :: []),
      c.length ≤ MAX_MESSAGE_LENGTH)
    ∧ split_long_message ('a' :: 'b' :: '\n' :: 'c' :: 'd' :: []) ≠ []
    ∧ send_long_message ('a' :: 'b' :: '\n' :: 'c' :: 'd' :: [])
        (fun i => toString i)
      = some (toString (0 : Nat)) := by
  refine ⟨by decide, ?_, by decide, ?_⟩
  · exact (chunked_delivery ('a' :: 'b' :: '\n' :: 'c' :: 'd' :: [])
      (fun i => toString i)).2.1 (by decide)
  · have h := (chunked_delivery ('a' :: 'b' :: '\n' :: 'c' :: 'd' :: [])
      (fun i => toString i)).2.2 (by decide)
    rw [h]
    rfl

/-- The oversized single-line report of the counterexample. -/
def oversized_line : List Char := List.replicate 4097 'a'

/-- `str.split` on a newline-free text returns the text as the single
line. -/
theorem splitLines_no_newline :
    ∀ (l : List Char), '\n' ∉ l → splitLines l = [l] := by
  intro l
  induction l with
  | nil => intro _; rfl
  | cons c rest ih =>
    intro h
    have hc : ¬ c = '\n' := fun hc => h (hc ▸ List.mem_cons_self c rest)
    have hr : '\n' ∉ rest := fun hr => h (List.mem_cons_of_mem c hr)
    simp only [splitLines, ih hr, if_neg hc]

/-- C9 counterexample: a report that is a single 4097-character line
exceeds the 4096-character transport limit, yet `_send_long_message`
produces exactly *one* chunk — not multiple — and that chunk itself
exceeds the 4096-character limit, refuting both the multi-chunk and
the per-chunk-bound parts of the claim. -/
theorem oversized_line_counterexample :
    MAX_MESSAGE_LENGTH < oversized_line.length
    ∧ split_long_message oversized_line = [oversized_line]
    ∧ (split_long_message oversized_line).length = 1
    ∧ ∀ c ∈ split_long_message oversized_line, MAX_MESSAGE_LENGTH < c.length := by
  have hmax : MAX_MESSAGE_LENGTH = 4096 := rfl
  have hlen : oversized_line.length = 4097 := by
    unfold oversized_line
    rw [List.length_replicate]
  have hnn : '\n' ∉ oversized_line := by
    intro h
    have := List.eq_of_mem_replicate h
    exact absurd this (by decide)
  have hne : oversized_line ≠ [] := by
    intro h
    rw [h] at hlen
    exact absurd hlen (by decide)
  have hsplit : split_long_message oversized_line = [oversized_line] := by
    unfold split_long_message
    rw [splitLines_no_newline oversized_line hnn]
    have hstep : split_go [oversized_line] [] = split_go [] oversized_line := by
      show (if MAX_MESSAGE_LENGTH - 100 < oversized_line.length then
          ([] : List (List Char)) ++ split_go [] oversized_line
        else split_go [] oversized_line) = split_go [] oversized_line
      split <;> rfl
    rw [hstep]
    show (if oversized_line = [] then ([] : List (List Char))
      else [oversized_line]) = [oversized_line]
    rw [if_neg hne]
  refine ⟨by omega, hsplit, by rw [hsplit]; rfl, ?_⟩
  intro c hc
  rw [hsplit, List.mem_singleton] at hc
  subst hc
  omega

/- ### C6: similarity contract -/

/-- `text.lower()` as a `String`. -/
def lowerStr (t : String) : String := String.mk (lowerList t)

/-- Round trip of `Char.ofNat` on code points of ASCII letters. -/
theorem charOfNat_toNat (n : Nat) (h1 : 65 ≤ n) (h2 : n ≤ 122) :
    (Char.ofNat n).toNat = n := by
  have hv : n.isValidChar := Or.inl (by omega)
  show (Char.ofNat n).val.toNat = n
  simp only [Char.ofNat, dif_pos hv, Char.ofNatAux]
  exact BitVec.toNat_ofNatLt n _

/-- Character order is code-point order. -/
theorem char_le_iff (c d : Char) : c ≤ d ↔ c.toNat ≤ d.toNat := by
  rw [Char.le_def, UInt32.le_def]
  exact Iff.rfl

/-- Lowering is idempotent on characters (`str.lower` of an already
lowered character is itself). -/
theorem charLower_idem (c : Char) : charLower (charLower c) = charLower c := by
  unfold charLower
  by_cases h : 'A' ≤ c ∧ c ≤ 'Z'
  · rw [if_pos h]
    obtain ⟨h1, h2⟩ := h
    rw [char_le_iff] at h1 h2
    have hA : ('A' : Char).toNat = 65 := rfl
    have hZ : ('Z' : Char).toNat = 90 := rfl
    rw [hA] at h1
    rw [hZ] at h2
    have htn : (Char.ofNat (c.toNat + 32)).toNat = c.toNat + 32 :=
      charOfNat_toNat _ (by omega) (by omega)
    rw [if_neg ?_]
    rintro ⟨ha, hb⟩
    rw [char_le_iff, hA, htn] at ha
    rw [char_le_iff, hZ, htn] at hb
    omega
  · rw [if_neg h, if_neg h]

/-- Lowering a `String` then taking its lowered code points is the
same as lowering once. -/
theorem lowerList_lowerStr (t : String) :
    lowerList (lowerStr t) = lowerList t := by
  show (String.mk (lowerList t)).toList.map charLower = lowerList t
  have hdata : (String.mk (lowerList t)).toList = lowerList t := rfl
  rw [hdata]
  unfold lowerList
  rw [List.map_map]
  apply List.map_congr_left
  intro c _
  exact charLower_idem c

/-- C6 counterexample: the similarity used for title dedup is *not*
symmetric: `SequenceMatcher`'s greedy longest-block recursion matches
only `"t"` between `"tide"` and `"diet"` (ratio 1/4) but `"d"` and
`"e"` in the swapped order (ratio 1/2). -/
theorem similarity_not_symmetric :
    calculate_similarity "tide" "diet" ≠ calculate_similarity "diet" "tide" := by
  decide

/-- The chain value `k` computed by `processJ` at position `j` from
the previous row `old` (`j2len.get(j-1, 0) + 1`). -/
def chainK (old : Nat → Nat) (j : Nat) : Nat :=
  (if j = 0 then 0 else old (j - 1)) + 1

/-- The dictionary after the inner loop holds `chainK old j` exactly
at the in-range occurrence positions processed, and is untouched
elsewhere. -/
theorem fold_j2len_eq (old : Nat → Nat) (i blo bhi : Nat) :
    ∀ (L : List Nat) (st : FlmState) (j' : Nat),
      ((L.foldl (processJ old i blo bhi) st).j2len) j'
        = if j' ∈ L ∧ blo ≤ j' ∧ j' < bhi then chainK old j'
          else st.j2len j' := by
  intro L
  induction L with
  | nil => intro st j'; simp
  | cons j rest ih =>
    intro st j'
    rw [List.foldl_cons, ih]
    by_cases hmem : j' ∈ rest ∧ blo ≤ j' ∧ j' < bhi
    · rw [if_pos hmem, if_pos ⟨List.mem_cons_of_mem j hmem.1, hmem.2⟩]
    · rw [if_neg hmem]
      by_cases hj : blo ≤ j ∧ j < bhi
      · have hps : (processJ old i blo bhi st j).j2len j'
            = if j' = j then chainK old j else st.j2len j' := by
          unfold processJ
          rw [if_pos hj]
          rfl
        rw [hps]
        by_cases hjj : j' = j
        · subst hjj
          rw [if_pos rfl, if_pos ⟨List.mem_cons_self j' rest, hj⟩]
        · rw [if_neg hjj, if_neg (by
            rintro ⟨hm, hr⟩
            rcases List.mem_cons.mp hm with h | h
            · exact hjj h
            · exact hmem ⟨h, hr⟩)]
      · have hps : (processJ old i blo bhi st j).j2len j' = st.j2len j' := by
          unfold processJ
          rw [if_neg hj]
        rw [hps, if_neg (by
          rintro ⟨hm, hr⟩
          rcases List.mem_cons.mp hm with h | h
          · exact hj (h ▸ hr)
          · exact hmem ⟨h, hr⟩)]

/-- If every in-range candidate chain is at most the current best
size, the inner loop never updates the best block. -/
theorem fold_best_no_update (old : Nat → Nat) (i blo bhi : Nat) :
    ∀ (L : List Nat) (st : FlmState),
      (∀ j ∈ L, blo ≤ j → j < bhi → chainK old j ≤ st.best.bestsize) →
      ((L.foldl (processJ old i blo bhi) st).best) = st.best := by
  intro L
  induction L with
  | nil => intro st _; rfl
  | cons j rest ih =>
    intro st hb
    rw [List.foldl_cons]
    have hst1 : (processJ old i blo bhi st j).best = st.best := by
      unfold processJ
      by_cases hj : blo ≤ j ∧ j < bhi
      · rw [if_pos hj]
        have hle := hb j (List.mem_cons_self j rest) hj.1 hj.2
        show (if st.best.bestsize < chainK old j then _ else st.best) = st.best
        rw [if_neg (by omega)]
      · rw [if_neg hj]
    rw [ih _ (fun j' hj' h1 h2 => by
      rw [hst1]
      exact hb j' (List.mem_cons_of_mem j hj') h1 h2), hst1]

/-- Invariant of the previous row's dictionary: a non-trivial chain
ending at `j` stays inside `[blo, bhi)`, is no longer than its
`b`-range allows, and no longer than the number of rows processed. -/
def OldBound (old : Nat → Nat) (iub blo bhi : Nat) : Prop :=
  ∀ j, old j = 0 ∨
    (blo ≤ j ∧ j < bhi ∧ old j + blo ≤ j + 1 ∧ old j ≤ iub)

/-- Invariant of the best block: it stays inside the region. -/
def BestBound (alo ahi blo bhi : Nat) (m : FlmBest) : Prop :=
  alo ≤ m.besti ∧ m.besti + m.bestsize ≤ ahi ∧
    blo ≤ m.bestj ∧ m.bestj + m.bestsize ≤ bhi

/-- A candidate chain at an in-range `j` during row `i` respects the
region bounds. -/
theorem chainK_bounds (old : Nat → Nat) (iub blo bhi j : Nat)
    (hold : OldBound old iub blo bhi) (hj1 : blo ≤ j) :
    chainK old j + blo ≤ j + 1 ∧ chainK old j ≤ iub + 1 := by
  by_cases h0 : j = 0
  · subst h0
    have hc : chainK old 0 = 1 := rfl
    rw [hc]
    omega
  · have hc : chainK old j = old (j - 1) + 1 := by
      unfold chainK
      rw [if_neg h0]
    rw [hc]
    rcases hold (j - 1) with h | h <;> omega

/-- The inner loop preserves the best-block region bounds. -/
theorem fold_best_bound (old : Nat → Nat) (alo ahi blo bhi i iub : Nat)
    (hold : OldBound old iub blo bhi) (hi1 : alo ≤ i) (hi2 : i < ahi)
    (hiub : iub = i - alo) :
    ∀ (L : List Nat) (st : FlmState),
      BestBound alo ahi blo bhi st.best →
      BestBound alo ahi blo bhi ((L.foldl (processJ old i blo bhi) st).best) := by
  intro L
  induction L with
  | nil => intro st h; exact h
  | cons j rest ih =>
    intro st hb
    rw [List.foldl_cons]
    apply ih
    unfold processJ
    by_cases hj : blo ≤ j ∧ j < bhi
    · rw [if_pos hj]
      show BestBound alo ahi blo bhi
        (if st.best.bestsize < chainK old j then
          ⟨i + 1 - chainK old j, j + 1 - chainK old j, chainK old j⟩
        else st.best)
      by_cases hup : st.best.bestsize < chainK old j
      · rw [if_pos hup]
        have hck := chainK_bounds old iub blo bhi j hold hj.1
        unfold BestBound
        simp only
        omega
      · rw [if_neg hup]
        exact hb
    · rw [if_neg hj]
      exact hb

/-- After the inner loop the dictionary again satisfies `OldBound`
for the next row. -/
theorem fold_j2len_bound (old : Nat → Nat) (alo ahi blo bhi i iub : Nat)
    (hold : OldBound old iub blo bhi) (hi1 : alo ≤ i)
    (hiub : iub = i - alo) (L : List Nat) (st : FlmState)
    (hst : ∀ j', st.j2len j' = 0) :
    OldBound ((L.foldl (processJ old i blo bhi) st).j2len)
      (i + 1 - alo) blo bhi := by
  intro j'
  rw [fold_j2len_eq]
  by_cases hmem : j' ∈ L ∧ blo ≤ j' ∧ j' < bhi
  · rw [if_pos hmem]
    right
    have hck := chainK_bounds old iub blo bhi j' hold hmem.2.1
    refine ⟨hmem.2.1, hmem.2.2, hck.1, by omega⟩
  · rw [if_neg hmem]
    left
    exact hst j'

/-- The whole main loop keeps the best block inside the region. -/
theorem flmLoop_aux_bound (a : List Char) (occs : Char → List Nat)
    (alo ahi blo bhi : Nat) :
    ∀ (cnt start : Nat) (st : FlmState), alo ≤ start → start + cnt ≤ ahi →
      OldBound st.j2len (start - alo) blo bhi →
      BestBound alo ahi blo bhi st.best →
      BestBound alo ahi blo bhi
        (((List.range' start cnt).foldl (flmIter a occs blo bhi) st).best) := by
  intro cnt
  induction cnt with
  | zero => intro start st _ _ _ hb; exact hb
  | succ cnt' ih =>
    intro start st hs1 hs2 hold hb
    rw [List.range'_succ, List.foldl_cons]
    apply ih (start + 1) _ (by omega) (by omega)
    · unfold flmIter
      exact fold_j2len_bound st.j2len alo ahi blo bhi start (start - alo)
        hold hs1 rfl _ _ (fun _ => rfl)
    · unfold flmIter
      exact fold_best_bound st.j2len alo ahi blo bhi start (start - alo)
        hold hs1 (by omega) rfl _ _ hb

/-- The backward extension loop keeps the best block inside the
region. -/
theorem extBackF_bound (a b : List Char) (alo blo ahi bhi : Nat)
    (p : Char → Bool) :
    ∀ (fuel : Nat) (m : FlmBest), BestBound alo ahi blo bhi m →
      BestBound alo ahi blo bhi (extBackF a b alo blo p fuel m) := by
  intro fuel
  induction fuel with
  | zero => intro m h; exact h
  | succ fuel' ih =>
    intro m hb
    unfold extBackF
    split
    · rename_i hg
      apply ih
      obtain ⟨h1, h2, h3, h4⟩ := hb
      have hg1 : alo < m.besti := hg.1
      have hg2 : blo < m.bestj := hg.2.1
      refine ⟨?_, ?_, ?_, ?_⟩
      · show alo ≤ m.besti - 1
        omega
      · show m.besti - 1 + (m.bestsize + 1) ≤ ahi
        omega
      · show blo ≤ m.bestj - 1
        omega
      · show m.bestj - 1 + (m.bestsize + 1) ≤ bhi
        omega
    · exact hb

/-- The forward extension loop keeps the best block inside the
region. -/
theorem extFwdF_bound (a b : List Char) (alo blo ahi bhi : Nat)
    (p : Char → Bool) :
    ∀ (fuel : Nat) (m : FlmBest), BestBound alo ahi blo bhi m →
      BestBound alo ahi blo bhi (extFwdF a b ahi bhi p fuel m) := by
  intro fuel
  induction fuel with
  | zero => intro m h; exact h
  | succ fuel' ih =>
    intro m hb
    unfold extFwdF
    split
    · rename_i hg
      apply ih
      obtain ⟨h1, h2, h3, h4⟩ := hb
      have hg1 : m.besti + m.bestsize < ahi := hg.1
      have hg2 : m.bestj + m.bestsize < bhi := hg.2.1
      refine ⟨?_, ?_, ?_, ?_⟩
      · show alo ≤ m.besti
        omega
      · show m.besti + (m.bestsize + 1) ≤ ahi
        omega
      · show blo ≤ m.bestj
        omega
      · show m.bestj + (m.bestsize + 1) ≤ bhi
        omega
    · exact hb

/-- `find_longest_match` returns a block inside the requested
region. -/
theorem find_longest_match_bound (a b : List Char)
    (occs : Char → List Nat) (alo ahi blo bhi : Nat)
    (h1 : alo ≤ ahi) (h2 : blo ≤ bhi) :
    BestBound alo ahi blo bhi (find_longest_match a b occs alo ahi blo bhi) := by
  unfold find_longest_match extBack extFwd
  apply extFwdF_bound
  apply extBackF_bound
  apply extFwdF_bound
  apply extBackF_bound
  unfold flmLoop
  apply flmLoop_aux_bound a occs alo ahi blo bhi (ahi - alo) alo _
    (le_refl alo) (by omega) (fun _ => Or.inl rfl)
  refine ⟨?_, ?_, ?_, ?_⟩
  · show alo ≤ alo
    omega
  · show alo + 0 ≤ ahi
    omega
  · show blo ≤ blo
    omega
  · show blo + 0 ≤ bhi
    omega

/-- The total matched size never exceeds either side of the region:
matching blocks are disjoint in both sequences. -/
theorem match_totalF_le (a b : List Char) (occs : Char → List Nat) :
    ∀ (fuel alo ahi blo bhi : Nat), alo ≤ ahi → blo ≤ bhi →
      match_totalF a b occs fuel alo ahi blo bhi
        ≤ min (ahi - alo) (bhi - blo) := by
  intro fuel
  induction fuel with
  | zero =>
    intro alo ahi blo bhi _ _
    exact Nat.zero_le _
  | succ fuel' ih =>
    intro alo ahi blo bhi h1 h2
    show (let m := find_longest_match a b occs alo ahi blo bhi
      if m.bestsize = 0 then 0
      else
        match_totalF a b occs fuel' alo m.besti blo m.bestj + m.bestsize +
          match_totalF a b occs fuel' (m.besti + m.bestsize) ahi
            (m.bestj + m.bestsize) bhi) ≤ min (ahi - alo) (bhi - blo)
    obtain ⟨hb1, hb2, hb3, hb4⟩ :=
      find_longest_match_bound a b occs alo ahi blo bhi h1 h2
    set m := find_longest_match a b occs alo ahi blo bhi with hm
    by_cases hz : m.bestsize = 0
    · rw [if_pos hz]
      exact Nat.zero_le _
    · rw [if_neg hz]
      have hL := ih alo m.besti blo m.bestj (by omega) (by omega)
      have hR := ih (m.besti + m.bestsize) ahi (m.bestj + m.bestsize) bhi
        (by omega) (by omega)
      omega

/-- `ratio` lies in `[0, 1]`. -/
theorem ratioQ_range (a b : List Char) :
    0 ≤ ratioQ a b ∧ ratioQ a b ≤ 1 := by
  unfold ratioQ
  by_cases h : a.length + b.length = 0
  · rw [if_pos h]
    norm_num
  · rw [if_neg h]
    have hM := match_totalF_le a b (occsOf b) (a.length + 1)
      0 a.length 0 b.length (Nat.zero_le _) (Nat.zero_le _)
    set M := match_totalF a b (occsOf b) (a.length + 1) 0 a.length 0 b.length
      with hMdef
    rw [Rat.mkRat_eq_div]
    have hden : (0 : ℚ) < ((a.length + b.length : ℕ) : ℚ) := by
      exact_mod_cast Nat.pos_of_ne_zero h
    constructor
    · apply div_nonneg _ (le_of_lt hden)
      have hnum : (0 : ℤ) ≤ 2 * (M : ℤ) := by omega
      exact_mod_cast hnum
    · rw [div_le_one hden]
      have h2M : 2 * M ≤ a.length + b.length := by omega
      have h2M' : (2 * (M : ℤ)) ≤ ((a.length + b.length : ℕ) : ℤ) := by
        exact_mod_cast h2M
      exact_mod_cast h2M'

/-- Membership in the raw occurrence list. -/
theorem mem_positionsOf {b : List Char} {c : Char} {j : Nat} :
    j ∈ positionsOf b c ↔ j < b.length ∧ b.getD j padChar = c := by
  unfold positionsOf
  simp [List.mem_filter, List.mem_range]

/-- Membership in `b2j` after the autojunk purge. -/
theorem mem_occsOf {b : List Char} {c : Char} {j : Nat} :
    j ∈ occsOf b c
      ↔ isPopular b c = false ∧ j < b.length ∧ b.getD j padChar = c := by
  unfold occsOf
  by_cases h : isPopular b c <;> simp [h, mem_positionsOf]

/-- Occurrence lists are strictly ascending. -/
theorem occsOf_sorted (b : List Char) (c : Char) :
    (occsOf b c).Pairwise (· < ·) := by
  unfold occsOf positionsOf
  split
  · exact List.Pairwise.nil
  · exact (List.pairwise_lt_range b.length).filter _

/-- A position is *non-popular* when it survives in `b2j` (compared
against itself, `a = b = s`). -/
def nonPopB (s : List Char) (j : Nat) : Bool :=
  decide (j ∈ occsOf s (s.getD j padChar))

/-- Length of the run of consecutive non-popular positions ending
just below `i`. -/
def runE (s : List Char) : Nat → Nat
  | 0 => 0
  | j + 1 => if nonPopB s j then runE s j + 1 else 0

/-- Maximum of `runE` over all indices up to `i`. -/
def maxRunE (s : List Char) : Nat → Nat
  | 0 => 0
  | j + 1 => max (maxRunE s j) (runE s (j + 1))

theorem runE_succ (s : List Char) (j : Nat) :
    runE s (j + 1) = if nonPopB s j then runE s j + 1 else 0 := rfl

theorem runE_le_maxRunE (s : List Char) (t : Nat) :
    runE s t ≤ maxRunE s t := by
  cases t with
  | zero => exact le_refl 0
  | succ t' => exact le_max_right _ _

theorem maxRunE_mono (s : List Char) :
    ∀ {t t' : Nat}, t ≤ t' → maxRunE s t ≤ maxRunE s t' := by
  intro t t' h
  induction t' with
  | zero => simp_all
  | succ t'' ih =>
    rcases Nat.lt_or_ge t (t'' + 1) with h' | h'
    · exact le_trans (ih (by omega)) (le_max_left _ _)
    · have : t = t'' + 1 := by omega
      subst this
      exact le_refl _

/-- Occurrence membership makes the position non-popular. -/
theorem nonPopB_of_mem {s : List Char} {c : Char} {j : Nat}
    (h : j ∈ occsOf s c) : nonPopB s j = true := by
  have hm := mem_occsOf.mp h
  unfold nonPopB
  rw [decide_eq_true_eq, hm.2.2]
  exact h

/-- A non-empty occurrence list of the character at position `i`
contains `i` itself. -/
theorem diag_mem {s : List Char} {i j : Nat} (hi : i < s.length)
    (hj : j ∈ occsOf s (s.getD i padChar)) :
    i ∈ occsOf s (s.getD i padChar) := by
  have hm := mem_occsOf.mp hj
  exact mem_occsOf.mpr ⟨hm.1, hi, rfl⟩

/-- A popular position has an empty occurrence list. -/
theorem occs_empty_of_not_nonPopB {s : List Char} {i : Nat}
    (hi : i < s.length) (h : nonPopB s i = false) :
    occsOf s (s.getD i padChar) = [] := by
  by_contra hne
  obtain ⟨j, hj⟩ := List.exists_mem_of_ne_nil _ hne
  have := nonPopB_of_mem (diag_mem hi hj)
  unfold nonPopB at h this
  rw [h] at this
  exact Bool.false_ne_true this

/-- One row of the main loop on `a = b = s` preserves the
self-comparison invariants: chains are bounded by the non-popular
runs, the diagonal chain is exactly the current run, the best block
stays diagonal, and its size dominates every run seen so far. -/
theorem flmIter_self (s : List Char) (i : Nat) (hi : i < s.length)
    (st : FlmState)
    (I1 : ∀ j, st.j2len j ≤ min (runE s i) (runE s (j + 1)))
    (I2 : ∀ j, j + 1 = i → st.j2len j = runE s i)
    (I3 : st.best.besti = st.best.bestj)
    (I4 : maxRunE s i ≤ st.best.bestsize) :
    (∀ j, (flmIter s (occsOf s) 0 s.length st i).j2len j
        ≤ min (runE s (i + 1)) (runE s (j + 1)))
    ∧ (∀ j, j + 1 = i + 1 →
        (flmIter s (occsOf s) 0 s.length st i).j2len j = runE s (i + 1))
    ∧ (flmIter s (occsOf s) 0 s.length st i).best.besti
        = (flmIter s (occsOf s) 0 s.length st i).best.bestj
    ∧ maxRunE s (i + 1) ≤ (flmIter s (occsOf s) 0 s.length st i).best.bestsize := by
  set n := s.length with hn
  set ci := s.getD i padChar with hci
  set L := occsOf s ci with hL
  -- candidate chains are bounded by the run ending at the candidate:
  have hck_j : ∀ j ∈ L, chainK st.j2len j ≤ runE s (j + 1) := by
    intro j hj
    have hnp : nonPopB s j = true := nonPopB_of_mem hj
    have hrun : runE s (j + 1) = runE s j + 1 := by
      rw [runE_succ, if_pos hnp]
    by_cases h0 : j = 0
    · subst h0
      have : chainK st.j2len 0 = 1 := rfl
      rw [this, hrun]
      omega
    · have hc : chainK st.j2len j = st.j2len (j - 1) + 1 := by
        unfold chainK
        rw [if_neg h0]
      have hI := I1 (j - 1)
      have hj1 : j - 1 + 1 = j := by omega
      rw [hj1] at hI
      omega
    -- chains are also bounded by the run ending at the current row:
  have hck_top : ∀ j, chainK st.j2len j ≤ runE s i + 1 := by
    intro j
    by_cases h0 : j = 0
    · subst h0
      have : chainK st.j2len 0 = 1 := rfl
      omega
    · have hc : chainK st.j2len j = st.j2len (j - 1) + 1 := by
        unfold chainK
        rw [if_neg h0]
      have hI := I1 (j - 1)
      omega
  have hj2len : ∀ j, (flmIter s (occsOf s) 0 n st i).j2len j
      = if j ∈ L ∧ 0 ≤ j ∧ j < n then chainK st.j2len j else 0 := by
    intro j
    unfold flmIter
    rw [← hci, ← hL, fold_j2len_eq]
  by_cases hpop : nonPopB s i = true
  · -- the character at `i` is non-popular: `i ∈ L`, run extends
    have hiL : i ∈ L := by
      have := hpop
      unfold nonPopB at this
      rw [decide_eq_true_eq] at this
      exact this
    have hrunI : runE s (i + 1) = runE s i + 1 := by
      rw [runE_succ, if_pos hpop]
    have hki : chainK st.j2len i = runE s (i + 1) := by
      by_cases h0 : i = 0
      · subst h0
        have h1 : chainK st.j2len 0 = 1 := rfl
        have h2 : runE s 0 = 0 := rfl
        omega
      · have hc : chainK st.j2len i = st.j2len (i - 1) + 1 := by
          unfold chainK
          rw [if_neg h0]
        have hI := I2 (i - 1) (by omega)
        omega
    refine ⟨?_, ?_, ?_⟩
    · intro j
      rw [hj2len j]
      by_cases hmem : j ∈ L ∧ 0 ≤ j ∧ j < n
      · rw [if_pos hmem]
        have h1 := hck_j j hmem.1
        have h2 := hck_top j
        omega
      · rw [if_neg hmem]
        omega
    · intro j hj
      have hj' : j = i := by omega
      subst hj'
      rw [hj2len j, if_pos ⟨hiL, Nat.zero_le j, hi⟩, hki]
    · -- best-block part: decompose the occurrence list around `i`
      obtain ⟨pre, post, hdec⟩ := List.append_of_mem hiL
      have hsorted : L.Pairwise (· < ·) := occsOf_sorted s ci
      rw [hdec] at hsorted
      rw [List.pairwise_append] at hsorted
      have hpre_lt : ∀ j ∈ pre, j < i :=
        fun j hj => hsorted.2.2 j hj i (List.mem_cons_self i post)
      have hpost_gt : ∀ j ∈ post, i < j :=
        fun j hj => (List.pairwise_cons.mp hsorted.2.1).1 j hj
      have hpre_mem : ∀ j ∈ pre, j ∈ L :=
        fun j hj => hdec ▸ List.mem_append_left _ hj
      have hpost_mem : ∀ j ∈ post, j ∈ L := fun j hj =>
        hdec ▸ List.mem_append_right _ (List.mem_cons_of_mem i hj)
      have hfold : flmIter s (occsOf s) 0 n st i
          = List.foldl (processJ st.j2len i 0 n)
              (processJ st.j2len i 0 n
                (List.foldl (processJ st.j2len i 0 n)
                  { j2len := fun _ => 0, best := st.best } pre) i) post := by
        unfold flmIter
        rw [← hci, ← hL, hdec, List.foldl_append, List.foldl_cons]
      set st1 := List.foldl (processJ st.j2len i 0 n)
        { j2len := fun _ => 0, best := st.best } pre with hst1
      have hb1 : st1.best = st.best := by
        rw [hst1]
        apply fold_best_no_update
        intro j hj _ _
        calc chainK st.j2len j ≤ runE s (j + 1) := hck_j j (hpre_mem j hj)
          _ ≤ maxRunE s (j + 1) := runE_le_maxRunE s (j + 1)
          _ ≤ maxRunE s i := maxRunE_mono s (by
              have := hpre_lt j hj
              omega)
          _ ≤ st.best.bestsize := I4
      set st2 := processJ st.j2len i 0 n st1 i with hst2
      have hb2 : st2.best
          = if st1.best.bestsize < chainK st.j2len i then
              ⟨i + 1 - chainK st.j2len i, i + 1 - chainK st.j2len i,
                chainK st.j2len i⟩
            else st1.best := by
        rw [hst2]
        unfold processJ
        rw [if_pos ⟨Nat.zero_le i, hi⟩]
        rfl
      have hb2size : runE s (i + 1) ≤ st2.best.bestsize
          ∧ st.best.bestsize ≤ st2.best.bestsize
          ∧ st2.best.besti = st2.best.bestj := by
        rw [hb2, hb1]
        by_cases hup : st.best.bestsize < chainK st.j2len i
        · rw [if_pos hup]
          refine ⟨by rw [← hki], by
            show st.best.bestsize ≤ chainK st.j2len i
            omega, rfl⟩
        · rw [if_neg hup]
          exact ⟨by omega, le_refl _, I3⟩
      have hb3 : (flmIter s (occsOf s) 0 n st i).best = st2.best := by
        rw [hfold]
        apply fold_best_no_update
        intro j hj _ _
        calc chainK st.j2len j ≤ runE s i + 1 := hck_top j
          _ = runE s (i + 1) := hrunI.symm
          _ ≤ st2.best.bestsize := hb2size.1
      constructor
      · rw [hb3]
        exact hb2size.2.2
      · rw [hb3]
        have hmax : maxRunE s (i + 1) = max (maxRunE s i) (runE s (i + 1)) := rfl
        have := hb2size.1
        have := hb2size.2.1
        omega
  · -- popular character: empty occurrence list, state resets
    have hpop' : nonPopB s i = false := by
      simpa using hpop
    have hempty : L = [] := occs_empty_of_not_nonPopB hi hpop'
    have hrunI : runE s (i + 1) = 0 := by
      rw [runE_succ, if_neg (by simp [hpop'])]
    have hfold : flmIter s (occsOf s) 0 n st i
        = { j2len := fun _ => 0, best := st.best } := by
      unfold flmIter
      rw [← hci, ← hL, hempty]
      rfl
    refine ⟨?_, ?_, ?_, ?_⟩
    · intro j
      rw [hfold]
      exact Nat.zero_le _
    · intro j hj
      rw [hfold, hrunI]
    · rw [hfold]
      exact I3
    · rw [hfold]
      show maxRunE s (i + 1) ≤ st.best.bestsize
      have hmax : maxRunE s (i + 1) = max (maxRunE s i) (runE s (i + 1)) := rfl
      omega

/-- The whole main loop on `a = b = s` ends with a diagonal best
block. -/
theorem flmLoop_aux_self (s : List Char) :
    ∀ (cnt start : Nat) (st : FlmState), start + cnt = s.length →
      (∀ j, st.j2len j ≤ min (runE s start) (runE s (j + 1))) →
      (∀ j, j + 1 = start → st.j2len j = runE s start) →
      st.best.besti = st.best.bestj →
      maxRunE s start ≤ st.best.bestsize →
      ((List.range' start cnt).foldl (flmIter s (occsOf s) 0 s.length)
          st).best.besti
        = ((List.range' start cnt).foldl (flmIter s (occsOf s) 0 s.length)
          st).best.bestj := by
  intro cnt
  induction cnt with
  | zero => intro start st _ _ _ h3 _; exact h3
  | succ cnt' ih =>
    intro start st hlen h1 h2 h3 h4
    rw [List.range'_succ, List.foldl_cons]
    obtain ⟨g1, g2, g3, g4⟩ :=
      flmIter_self s start (by omega) st h1 h2 h3 h4
    exact ih (start + 1) _ (by omega) g1 g2 g3 g4

/-- The main loop of the self-comparison gives a diagonal best
block. -/
theorem flmLoop_self_diag (s : List Char) :
    (flmLoop s (occsOf s) 0 s.length 0 s.length).besti
      = (flmLoop s (occsOf s) 0 s.length 0 s.length).bestj := by
  unfold flmLoop
  rw [Nat.sub_zero]
  exact flmLoop_aux_self s s.length 0 _ (by omega)
    (fun j => Nat.zero_le _) (fun j hj => by omega) rfl
    (le_refl 0)

/-- A failed guard stops the backward extension loop immediately. -/
theorem extBackF_stop (a b : List Char) (alo blo : Nat) (p : Char → Bool)
    (fuel : Nat) (m : FlmBest) (h : ¬ backGuard a b alo blo p m) :
    extBackF a b alo blo p fuel m = m := by
  cases fuel with
  | zero => rfl
  | succ fuel' =>
    unfold extBackF
    rw [if_neg h]

/-- A failed guard stops the forward extension loop immediately. -/
theorem extFwdF_stop (a b : List Char) (ahi bhi : Nat) (p : Char → Bool)
    (fuel : Nat) (m : FlmBest) (h : ¬ fwdGuard a b ahi bhi p m) :
    extFwdF a b ahi bhi p fuel m = m := by
  cases fuel with
  | zero => rfl
  | succ fuel' =>
    unfold extFwdF
    rw [if_neg h]

/-- With the empty junk set, the two junk extension loops are
no-ops. -/
theorem extBackF_noop (a b : List Char) (alo blo : Nat) (fuel : Nat)
    (m : FlmBest) : extBackF a b alo blo bjunkNone fuel m = m :=
  extBackF_stop a b alo blo bjunkNone fuel m (fun h => by
    have := h.2.2.1
    simp [bjunkNone] at this)

/-- With the empty junk set, the two junk extension loops are
no-ops. -/
theorem extFwdF_noop (a b : List Char) (ahi bhi : Nat) (fuel : Nat)
    (m : FlmBest) : extFwdF a b ahi bhi bjunkNone fuel m = m :=
  extFwdF_stop a b ahi bhi bjunkNone fuel m (fun h => by
    have := h.2.2.1
    simp [bjunkNone] at this)

/-- On the self-comparison, backward extension of a diagonal block
runs all the way to position 0. -/
theorem extBackF_diag_self (s : List Char) (p : Char → Bool)
    (hp : ∀ c, p c = true) :
    ∀ (d k : Nat), extBackF s s 0 0 p d ⟨d, d, k⟩ = ⟨0, 0, k + d⟩ := by
  intro d
  induction d with
  | zero => intro k; rfl
  | succ d' ih =>
    intro k
    unfold extBackF
    rw [if_pos ⟨Nat.succ_pos d', Nat.succ_pos d', hp _, rfl⟩]
    show extBackF s s 0 0 p d' ⟨d', d', k + 1⟩ = ⟨0, 0, k + (d' + 1)⟩
    rw [ih (k + 1)]
    congr 1
    omega

/-- On the self-comparison, forward extension of a prefix block runs
all the way to the end of the string. -/
theorem extFwdF_diag_self (s : List Char) (p : Char → Bool)
    (hp : ∀ c, p c = true) :
    ∀ (fuel k : Nat), fuel + k = s.length →
      extFwdF s s s.length s.length p fuel ⟨0, 0, k⟩ = ⟨0, 0, s.length⟩ := by
  intro fuel
  induction fuel with
  | zero =>
    intro k hk
    simp only [Nat.zero_add] at hk
    rw [hk]
    rfl
  | succ fuel' ih =>
    intro k hk
    unfold extFwdF
    rw [if_pos ⟨by
      show 0 + k < s.length
      omega, by
      show 0 + k < s.length
      omega, hp _, rfl⟩]
    exact ih (k + 1) (by omega)

/-- `find_longest_match` on the self-comparison over the full ranges
returns the whole string as one block. -/
theorem find_longest_match_self (s : List Char) :
    find_longest_match s s (occsOf s) 0 s.length 0 s.length
      = ⟨0, 0, s.length⟩ := by
  have hdiag := flmLoop_self_diag s
  have hbb : BestBound 0 s.length 0 s.length
      (flmLoop s (occsOf s) 0 s.length 0 s.length) := by
    unfold flmLoop
    rw [Nat.sub_zero]
    exact flmLoop_aux_bound s (occsOf s) 0 s.length 0 s.length
      s.length 0 { j2len := fun _ => 0, best := ⟨0, 0, 0⟩ }
      (le_refl 0) (by omega) (fun _ => Or.inl rfl)
      ⟨le_refl 0, by
        show 0 + 0 ≤ s.length
        omega, le_refl 0, by
        show 0 + 0 ≤ s.length
        omega⟩
  obtain ⟨hb1, hb2, hb3, hb4⟩ := hbb
  set m0 := flmLoop s (occsOf s) 0 s.length 0 s.length with hm0
  have hp1 : ∀ c, (fun c => !(bjunkNone c)) c = true := fun c => rfl
  show extFwd s s s.length s.length bjunkNone
    (extBack s s 0 0 bjunkNone
      (extFwd s s s.length s.length (fun c => !(bjunkNone c))
        (extBack s s 0 0 (fun c => !(bjunkNone c)) m0))) = ⟨0, 0, s.length⟩
  have hstruct : m0 = ⟨m0.bestj, m0.bestj, m0.bestsize⟩ := by
    have heta : m0 = ⟨m0.besti, m0.bestj, m0.bestsize⟩ := rfl
    rw [heta, hdiag]
  have h1 : extBack s s 0 0 (fun c => !(bjunkNone c)) m0
      = ⟨0, 0, m0.bestsize + m0.bestj⟩ := by
    unfold extBack
    rw [hstruct]
    exact extBackF_diag_self s _ hp1 m0.bestj m0.bestsize
  rw [h1]
  have h2 : extFwd s s s.length s.length (fun c => !(bjunkNone c))
      ⟨0, 0, m0.bestsize + m0.bestj⟩ = ⟨0, 0, s.length⟩ := by
    unfold extFwd
    exact extFwdF_diag_self s _ hp1 _ _ (by
      show s.length - (0 + (m0.bestsize + m0.bestj)) + (m0.bestsize + m0.bestj)
        = s.length
      rw [hdiag] at hb2
      omega)
  rw [h2]
  unfold extBack extFwd
  rw [extBackF_noop, extFwdF_noop]

/-- An empty `a`-region yields a zero-size block. -/
theorem find_longest_match_empty (a b : List Char)
    (occs : Char → List Nat) (x blo bhi : Nat) :
    find_longest_match a b occs x x blo bhi = ⟨x, blo, 0⟩ := by
  have hloop : flmLoop a occs x x blo bhi = ⟨x, blo, 0⟩ := by
    unfold flmLoop
    rw [Nat.sub_self]
    rfl
  show extFwd a b x bhi bjunkNone
    (extBack a b x blo bjunkNone
      (extFwd a b x bhi (fun c => !(bjunkNone c))
        (extBack a b x blo (fun c => !(bjunkNone c))
          (flmLoop a occs x x blo bhi)))) = ⟨x, blo, 0⟩
  rw [hloop]
  have hback : ∀ p, extBack a b x blo p ⟨x, blo, 0⟩ = ⟨x, blo, 0⟩ := by
    intro p
    unfold extBack
    exact extBackF_stop a b x blo p x ⟨x, blo, 0⟩ (fun h => by
      have : x < x := h.1
      omega)
  have hfwd : ∀ p, extFwd a b x bhi p ⟨x, blo, 0⟩ = ⟨x, blo, 0⟩ := by
    intro p
    unfold extFwd
    exact extFwdF_stop a b x bhi p _ ⟨x, blo, 0⟩ (fun h => by
      have : x + 0 < x := h.1
      omega)
  rw [hback, hfwd, hback, hfwd]

/-- The total over an empty `a`-region is zero. -/
theorem match_totalF_empty (a b : List Char) (occs : Char → List Nat)
    (fuel x blo bhi : Nat) :
    match_totalF a b occs (fuel + 1) x x blo bhi = 0 := by
  show (let m := find_longest_match a b occs x x blo bhi
    if m.bestsize = 0 then 0
    else
      match_totalF a b occs fuel x m.besti blo m.bestj + m.bestsize +
        match_totalF a b occs fuel (m.besti + m.bestsize) x
          (m.bestj + m.bestsize) bhi) = 0
  rw [find_longest_match_empty]
  rfl

/-- `SequenceMatcher(None, s, s).ratio() = 1`. -/
theorem ratioQ_self (s : List Char) : ratioQ s s = 1 := by
  unfold ratioQ
  by_cases h : s.length + s.length = 0
  · rw [if_pos h]
  · rw [if_neg h]
    have hn : 1 ≤ s.length := by omega
    obtain ⟨n', hn'⟩ : ∃ n', s.length = n' + 1 := ⟨s.length - 1, by omega⟩
    have hM : match_totalF s s (occsOf s) (s.length + 1)
        0 s.length 0 s.length = s.length := by
      show (let m := find_longest_match s s (occsOf s) 0 s.length 0 s.length
        if m.bestsize = 0 then 0
        else
          match_totalF s s (occsOf s) s.length 0 m.besti 0 m.bestj
            + m.bestsize +
            match_totalF s s (occsOf s) s.length (m.besti + m.bestsize)
              s.length (m.bestj + m.bestsize) s.length) = s.length
      rw [find_longest_match_self]
      show (if s.length = 0 then 0
        else
          match_totalF s s (occsOf s) s.length 0 0 0 0 + s.length +
            match_totalF s s (occsOf s) s.length (0 + s.length) s.length
              (0 + s.length) s.length) = s.length
      rw [if_neg (by omega)]
      rw [hn']
      simp only [Nat.zero_add]
      rw [match_totalF_empty, match_totalF_empty]
      omega
    rw [hM, Rat.mkRat_eq_div]
    have hne : ((s.length + s.length : ℕ) : ℚ) ≠ 0 := by
      exact_mod_cast h
    have hcast : ((2 * (s.length : ℤ) : ℤ) : ℚ)
        = ((s.length + s.length : ℕ) : ℚ) := by
      push_cast
      ring
    rw [← hcast] at hne ⊢
    rw [div_self hne]

/-- C6 (amended): the similarity function used for title dedup always
lies in `[0, 1]`, is reflexive (`similarity(a, a) = 1`), and is
case-insensitive (unchanged under lowercasing either argument) — but
it is *not* symmetric (see the counterexample): `SequenceMatcher`'s
greedy block matching can find different totals depending on argument
order. -/
theorem similarity_contract (a b : String) :
    0 ≤ calculate_similarity a b
    ∧ calculate_similarity a b ≤ 1
    ∧ calculate_similarity a a = 1
    ∧ calculate_similarity (lowerStr a) b = calculate_similarity a b
    ∧ calculate_similarity a (lowerStr b) = calculate_similarity a b := by
  refine ⟨(ratioQ_range (lowerList a) (lowerList b)).1,
    (ratioQ_range (lowerList a) (lowerList b)).2,
    ratioQ_self (lowerList a), ?_, ?_⟩
  · show ratioQ (lowerList (lowerStr a)) (lowerList b)
      = ratioQ (lowerList a) (lowerList b)
    rw [lowerList_lowerStr]
  · show ratioQ (lowerList a) (lowerList (lowerStr b))
      = ratioQ (lowerList a) (lowerList b)
    rw [lowerList_lowerStr]
